import Mathlib

/-!
# NGP 2bpp tile codec (`format_ngp_2bpp.c`)

A shallow embedding of `bin_decode_image` and `bin_encode_image` and the
properties of the codec that follow from them.

Conventions of the embedding:

* every C local of a function is a field of one state record, and every `for`
  loop is a left fold of its body over `List.range bound`;
* `unsigned short` variables (`pixdata`, `output`) are naturals reduced
  `% 65536` at each store that can leave the 16-bit range;
* buffers are lists; a pointer into a buffer is an index into the list.  The
  pixel buffer holds one `Pixel` record per pixel, so advancing a pixel pointer
  by `bytes_per_pixel` bytes is advancing the index by one;
* `size` of a `rom_gfx_data` is an integer, so that the subtraction at the end
  of `bin_encode_image` is exact;
* loop counters and `empty_tile_count` are unbounded naturals.
-/

namespace NgpCodec

/-! ## Data model -/

/-- Geometry descriptor of a packed format; the fields are those of the
initialiser of `rom_attrib`, in order. -/
structure rom_gfx_attrib where
  IMAGE_WIDTH_DEFAULT : Nat
  TILE_PIXEL_WIDTH : Nat
  TILE_PIXEL_HEIGHT : Nat
  BITS_PER_PIXEL : Nat
  DECODED_NUM_COLORS : Nat
  DECODED_BYTES_PER_COLOR : Nat

/-- The constant geometry table of the format (source lines 35-43). -/
def rom_attrib : rom_gfx_attrib :=
  { IMAGE_WIDTH_DEFAULT := 128
    TILE_PIXEL_WIDTH := 8
    TILE_PIXEL_HEIGHT := 8
    BITS_PER_PIXEL := 2
    DECODED_NUM_COLORS := 4
    DECODED_BYTES_PER_COLOR := 3 }

/-- Number of pixels packed in one 16-bit word (source line 30). -/
def PIXELS_PER_WORD : Nat := 8

/-- Modelled from the spec: the editor-side pixel representation, which is
declared outside `format_ngp_2bpp.c`.  Only the palette-index field and the
transparency indicator are relevant to the codec (spec section 3). -/
structure Pixel where
  index : Nat
  transparent : Bool
deriving DecidableEq

/-- The pixel record used where the embedding indexes a pixel buffer outside its
length: index `0`, not transparent. -/
instance instInhabitedPixel : Inhabited Pixel :=
  ⟨{ index := 0, transparent := false }⟩

/-- Packed buffer descriptor: `p_data` is `none` for a `NULL` pointer. -/
structure rom_gfx_data where
  p_data : Option (List Nat)
  size : Int
deriving DecidableEq

/-- Pixel buffer descriptor: `p_data` is `none` for a `NULL` pointer. -/
structure app_gfx_data where
  p_data : Option (List Pixel)
  width : Nat
  height : Nat
deriving DecidableEq

/-! ## Collaborators declared in `rom_utils.h` -/

/-- Modelled from the spec: `romimg_calc_appimg_offset`, the pixel storage
accessor.  Given `(tileX, tileY, rowInTile)` it returns a cursor positioned at
the first of the 8 consecutive pixels of that row (spec section 6); the pixel
buffer is a `width`-wide rectangular grid stored row by row. -/
def romimg_calc_appimg_offset (x y ty : Nat) (width : Nat) (attrib : rom_gfx_attrib) : Nat :=
  (y * attrib.TILE_PIXEL_HEIGHT + ty) * width + x * attrib.TILE_PIXEL_WIDTH

/-- Modelled from the spec: `romimg_set_decoded_pixel_and_advance`, the pixel
store of the decoder.  It writes the palette index at the cursor, sets the
transparency flag of the pixel when the decoder is in the truncated state
(spec section 4.2, step 4), and advances the cursor by one pixel. -/
def romimg_set_decoded_pixel_and_advance (p_image_pixel : Nat) (pixel_val : Nat)
    (rom_ended : Bool) (image : List Pixel) : Nat × List Pixel :=
  (p_image_pixel + 1, image.set p_image_pixel { index := pixel_val, transparent := rom_ended })

/-- Modelled from the spec: `romimg_log_transparent_pixel`, which records
whether the pixel under the cursor is transparent into the transparency
accumulator of the tile (spec section 4.3).  The accumulator is reset to `0` for each tile
(source line 198) and stays `0` exactly while every pixel seen is
transparent. -/
def romimg_log_transparent_pixel (px : Pixel) (transparency_flag : Nat) : Nat :=
  transparency_flag ||| (if px.transparent then 0 else 1)

/-- Modelled from the spec: `romimg_log_transparent_tiles`, which increments
the empty-tile count when the entire tile (all 64 pixels) is transparent
(spec section 4.3). -/
def romimg_log_transparent_tiles (transparency_flag : Nat) (empty_tile_count : Nat) : Nat :=
  if transparency_flag = 0 then empty_tile_count + 1 else empty_tile_count

/-- The tile byte size both functions compute (source lines 110 and 237). -/
def tile_size_in_bytes : Nat :=
  (rom_attrib.TILE_PIXEL_WIDTH * rom_attrib.TILE_PIXEL_HEIGHT) / (8 / rom_attrib.BITS_PER_PIXEL)

/-! ## `bin_decode_image` -/

/-- The locals of `bin_decode_image` together with the destination pixel
buffer.  `reads` is the trace of the packed offsets dereferenced so far, in
order; it is a ghost field and never influences the other fields. -/
structure decode_state where
  pixdata : Nat
  p_image_pixel : Nat
  rom_offset : Nat
  rom_ended : Bool
  image : List Pixel
  reads : List Nat
deriving DecidableEq

/-- Body of the `b` loop (source lines 145-157): store one pixel, then shift the
16-bit word left by two. -/
def decode_pixel (s : decode_state) (_b : Nat) : decode_state :=
  let r := romimg_set_decoded_pixel_and_advance s.p_image_pixel
    ((s.pixdata >>> 14) &&& 0x03) s.rom_ended s.image
  { s with p_image_pixel := r.1, image := r.2, pixdata := (s.pixdata <<< 2) % 65536 }

/-- The two reads of source lines 140-141: low byte, then high byte. -/
def decode_read_word (data : List Nat) (s : decode_state) : decode_state :=
  let s1 := { s with pixdata := data.getD s.rom_offset 0
                     reads := s.reads ++ [s.rom_offset]
                     rom_offset := s.rom_offset + 1 }
  { s1 with pixdata := (s1.pixdata ||| (data.getD s1.rom_offset 0 <<< 8)) % 65536
            reads := s1.reads ++ [s1.rom_offset]
            rom_offset := s1.rom_offset + 1 }

/-- Body of the `ty` loop (source lines 132-159). -/
def decode_row (data : List Nat) (width : Nat) (x y : Nat) (s : decode_state) (ty : Nat) :
    decode_state :=
  let s1 := { s with p_image_pixel := romimg_calc_appimg_offset x y ty width rom_attrib }
  let s2 := if !s1.rom_ended then decode_read_word data s1 else s1
  (List.range PIXELS_PER_WORD).foldl decode_pixel s2

/-- Body of the `x` loop (source lines 114-160). -/
def decode_tile (data : List Nat) (size : Int) (width : Nat) (y : Nat) (s : decode_state)
    (x : Nat) : decode_state :=
  let s1 := if ((s.rom_offset + tile_size_in_bytes : Nat) : Int) > size
    then { s with rom_ended := true } else s
  (List.range rom_attrib.TILE_PIXEL_HEIGHT).foldl (decode_row data width x y) s1

/-- Body of the `y` loop (source lines 112-161). -/
def decode_tile_row (data : List Nat) (size : Int) (width : Nat) (s : decode_state) (y : Nat) :
    decode_state :=
  (List.range (width / rom_attrib.TILE_PIXEL_WIDTH)).foldl (decode_tile data size width y) s

/-- The loop nest of `bin_decode_image` (source lines 108-161).  `pixdata0` is
the indeterminate value of the uninitialised `unsigned short pixdata`. -/
def bin_decode_loops (pixdata0 : Nat) (data : List Nat) (size : Int) (image : List Pixel)
    (width height : Nat) : decode_state :=
  (List.range (height / rom_attrib.TILE_PIXEL_HEIGHT)).foldl (decode_tile_row data size width)
    { pixdata := pixdata0 % 65536
      p_image_pixel := 0
      rom_offset := 0
      rom_ended := false
      image := image
      reads := [] }

/-- Embedding of `bin_decode_image` (source lines 87-165): the return code and
the pixel buffer descriptor after the call. -/
def bin_decode_image (pixdata0 : Nat) (p_rom_gfx : rom_gfx_data) (p_app_gfx : app_gfx_data) :
    Int × app_gfx_data :=
  match p_rom_gfx.p_data, p_app_gfx.p_data with
  | some data, some image =>
    if p_app_gfx.width = 0 ∨ p_app_gfx.height = 0 then (-1, p_app_gfx)
    else
      let s := bin_decode_loops pixdata0 data p_rom_gfx.size image p_app_gfx.width
        p_app_gfx.height
      (0, { p_app_gfx with p_data := some s.image })
  | _, _ => (-1, p_app_gfx)

/-! ## `bin_encode_image` -/

/-- The locals of `bin_encode_image` together with the destination packed
buffer.  `writes` is the trace of the packed offsets stored to so far, in
order; it is a ghost field and never influences the other fields. -/
structure encode_state where
  p_image_pixel : Nat
  rom_offset : Nat
  output : Nat
  transparency_flag : Nat
  empty_tile_count : Nat
  data : List Nat
  writes : List Nat
deriving DecidableEq

/-- Body of the `b` loop (source lines 212-223). -/
def encode_pixel (image : List Pixel) (s : encode_state) (_b : Nat) : encode_state :=
  let s1 := { s with output := (s.output <<< 2) % 65536 }
  let s2 := { s1 with output := s1.output ||| ((image.getD s1.p_image_pixel default).index &&& 0x03) }
  let s3 := { s2 with transparency_flag :=
    romimg_log_transparent_pixel (image.getD s2.p_image_pixel default) s2.transparency_flag }
  { s3 with p_image_pixel := s3.p_image_pixel + 1 }

/-- The two stores of source lines 226-227: low byte, then high byte. -/
def encode_write_word (s : encode_state) : encode_state :=
  let s1 := { s with data := s.data.set s.rom_offset (s.output &&& 0xFF)
                     writes := s.writes ++ [s.rom_offset]
                     rom_offset := s.rom_offset + 1 }
  { s1 with data := s1.data.set s1.rom_offset ((s1.output >>> 8) &&& 0xFF)
            writes := s1.writes ++ [s1.rom_offset]
            rom_offset := s1.rom_offset + 1 }

/-- Body of the `ty` loop (source lines 201-229). -/
def encode_row (image : List Pixel) (width : Nat) (x y : Nat) (s : encode_state) (ty : Nat) :
    encode_state :=
  let s1 := { s with p_image_pixel := romimg_calc_appimg_offset x y ty width rom_attrib }
  let s2 := { s1 with output := 0 }
  let s3 := (List.range PIXELS_PER_WORD).foldl (encode_pixel image) s2
  encode_write_word s3

/-- Body of the `x` loop (source lines 195-232). -/
def encode_tile (image : List Pixel) (width : Nat) (y : Nat) (s : encode_state) (x : Nat) :
    encode_state :=
  let s1 := { s with transparency_flag := 0 }
  let s2 := (List.range rom_attrib.TILE_PIXEL_HEIGHT).foldl (encode_row image width x y) s1
  { s2 with empty_tile_count :=
    romimg_log_transparent_tiles s2.transparency_flag s2.empty_tile_count }

/-- Body of the `y` loop (source lines 193-233). -/
def encode_tile_row (image : List Pixel) (width : Nat) (s : encode_state) (y : Nat) :
    encode_state :=
  (List.range (width / rom_attrib.TILE_PIXEL_WIDTH)).foldl (encode_tile image width y) s

/-- The loop nest of `bin_encode_image` (source lines 190-233).  The locals
`p_image_pixel`, `output` and `transparency_flag` are uninitialised in the
source and assigned before they are read; they start at `0` here. -/
def bin_encode_loops (image : List Pixel) (data : List Nat) (width height : Nat) : encode_state :=
  (List.range (height / rom_attrib.TILE_PIXEL_HEIGHT)).foldl (encode_tile_row image width)
    { p_image_pixel := 0
      rom_offset := 0
      output := 0
      transparency_flag := 0
      empty_tile_count := 0
      data := data
      writes := [] }

/-- Embedding of `bin_encode_image` (source lines 169-245): the return code and
the packed buffer descriptor after the call. -/
def bin_encode_image (p_rom_gfx : rom_gfx_data) (p_app_gfx : app_gfx_data) :
    Int × rom_gfx_data :=
  match p_app_gfx.p_data, p_rom_gfx.p_data with
  | some image, some data =>
    if p_rom_gfx.size = 0 ∨ p_app_gfx.width = 0 ∨ p_app_gfx.height = 0 then (-1, p_rom_gfx)
    else
      let s := bin_encode_loops image data p_app_gfx.width p_app_gfx.height
      let tile_size_bytes : Nat :=
        (rom_attrib.TILE_PIXEL_WIDTH * rom_attrib.TILE_PIXEL_HEIGHT) / (8 / rom_attrib.BITS_PER_PIXEL)
      (0, { p_data := some s.data
            size := p_rom_gfx.size - ((s.empty_tile_count * tile_size_bytes : Nat) : Int) })
  | _, _ => (-1, p_rom_gfx)

/-! ## Specification functions and sample inputs -/

/-- Palette index of the pixel in column `c` (0 is leftmost) of a row packed in the
16-bit `word`. -/
def unpack_pixel (word c : Nat) : Nat := (word >>> (14 - 2 * c)) &&& 3

/-- The 16-bit little-endian word at packed offset `o`. -/
def packed_word (data : List Nat) (o : Nat) : Nat :=
  data.getD o 0 ||| (data.getD (o + 1) 0 <<< 8)

/-- The word the `b` loop of a row unpacks. -/
def row_word (data : List Nat) (s : decode_state) : Nat :=
  if s.rom_ended then s.pixdata else packed_word data s.rom_offset % 65536

/-- The word unpacked for row `r` of a tile entered at packed offset `o` with
word register `pd`, in the truncated state (`e = true`) or not. -/
def tile_row_word (data : List Nat) (e : Bool) (pd o r : Nat) : Nat :=
  if e then (if r = 0 then pd else 0) else packed_word data (o + 2 * r) % 65536

/-- Row-major index of the tile that holds pixel `(px, py)`. -/
def tile_index (width px py : Nat) : Nat := (py / 8) * (width / 8) + px / 8

/-- The pixel that decoding `n` bytes of `data` stores at `(px, py)`. -/
def decoded_pixel (pixdata0 : Nat) (data : List Nat) (n width px py : Nat) : Pixel :=
  if tile_index width px py < n / 16 then
    { index := unpack_pixel (packed_word data (16 * tile_index width px py + 2 * (py % 8))) (px % 8)
      transparent := false }
  else
    { index := if tile_index width px py = 0 ∧ py % 8 = 0
        then unpack_pixel (pixdata0 % 65536) (px % 8) else 0
      transparent := true }

/-- State of the decoder after `t` tiles. -/
def decode_inv (pixdata0 : Nat) (data : List Nat) (n width : Nat) (image : List Pixel) (t : Nat)
    (s : decode_state) : Prop :=
  s.rom_offset = 16 * min t (n / 16) ∧
  s.rom_ended = decide (n / 16 < t) ∧
  s.reads = List.range s.rom_offset ∧
  s.pixdata = (if t = 0 then pixdata0 % 65536 else 0) ∧
  s.image.length = image.length ∧
  ∀ px py, px < width → s.image[py * width + px]? =
    if tile_index width px py < t then some (decoded_pixel pixdata0 data n width px py)
    else image[py * width + px]?

/-- The 16-bit word that packs the first `m` pixels starting at cursor `base`. -/
def pack_pixels (image : List Pixel) (base m : Nat) : Nat :=
  (List.range m).foldl (fun acc i => acc * 4 + (image.getD (base + i) default).index % 4) 0

/-- Byte `half` (0 = first, 1 = second) that the encoder emits for the 16-bit word `w`. -/
def word_byte (w half : Nat) : Nat :=
  if half = 0 then w &&& 0xFF else (w >>> 8) &&& 0xFF

/-- Whether all 64 pixels of tile `t` (row-major tile index) are transparent. -/
def tile_transparent (image : List Pixel) (width t : Nat) : Bool :=
  (List.range 8).all fun r => (List.range 8).all fun c =>
    (image.getD (romimg_calc_appimg_offset (t % (width / 8)) (t / (width / 8)) r width rom_attrib
      + c) default).transparent

/-- The byte the encoder stores at packed offset `j`: tile `j / 16`, row
`j % 16 / 2`, first or second byte of the word of that row. -/
def encoded_byte (image : List Pixel) (width j : Nat) : Nat :=
  word_byte
    (pack_pixels image
      (romimg_calc_appimg_offset (j / 16 % (width / 8)) (j / 16 / (width / 8)) (j % 16 / 2) width
        rom_attrib) 8)
    (j % 2)

/-- State of the encoder after `t` tiles. -/
def encode_inv (image : List Pixel) (width : Nat) (data : List Nat) (t : Nat)
    (s : encode_state) : Prop :=
  s.rom_offset = 16 * t ∧
  s.writes = List.range s.rom_offset ∧
  s.empty_tile_count = (List.range t).countP (tile_transparent image width) ∧
  s.data.length = data.length ∧
  ∀ j, s.data[j]? = if j < 16 * t then some (encoded_byte image width j) else data[j]?

/-- The decoder state at the start of the first row of the first tile. -/
def decode_init (pixdata0 : Nat) (image : List Pixel) : decode_state :=
  { pixdata := pixdata0 % 65536, p_image_pixel := 0, rom_offset := 0, rom_ended := false,
    image := image, reads := [] }

/-- An 18-byte packed buffer: one complete tile of zero bytes, then `0xFF, 0xFF`. -/
def packed18 : List Nat := List.replicate 16 0 ++ [0xFF, 0xFF]

/-- The property claimed of row-granular truncation, for one input: every
pixel of a row for which two unread bytes remain (row `m` of the stream needs
bytes `2 * m` and `2 * m + 1`) is decoded from the data, not made transparent. -/
def row_granular (pixdata0 : Nat) (data : List Nat) (target : List Pixel) (w h : Nat) : Prop :=
  ∀ px py, px < w → py < h →
    2 * (8 * tile_index w px py + py % 8) + 2 ≤ data.length →
    (bin_decode_image pixdata0 ⟨some data, data.length⟩ ⟨some target, w, h⟩).2.p_data.map
        (fun out => out.getD (py * w + px) default) =
      some ⟨unpack_pixel (packed_word data (2 * (8 * tile_index w px py + py % 8))) (px % 8), false⟩

/-- An 8×8 pixel buffer with indices `0,1,2,3,0,1,...` and no transparent pixel. -/
def sample_image : List Pixel := (List.range 64).map fun k => ⟨k % 4, false⟩

/-- An 8×8 pixel buffer all of whose pixels are transparent. -/
def clear_image : List Pixel := List.replicate 64 ⟨2, true⟩

/-- One tile of packed data. -/
def sample_packed : List Nat := [0x00, 0xFC, 0x1B, 0xE4, 1, 2, 3, 4, 5, 6, 7, 8, 9, 10, 11, 12]

/-- A 16×8 pixel buffer whose left tile is fully transparent (index 1) and
whose right tile is not transparent (index 3). -/
def gap_image : List Pixel :=
  (List.range 128).map fun k => if k % 16 < 8 then ⟨1, true⟩ else ⟨3, false⟩

/-- The 16 bytes the encoder produces for tile `t`. -/
def tile_bytes (image : List Pixel) (width t : Nat) : List Nat :=
  (List.range 16).map fun j => encoded_byte image width (16 * t + j)

/-- The concatenation, in tile order, of the encodings of the tiles among the
first `tiles` that are not fully transparent. -/
def kept_tile_bytes (image : List Pixel) (width tiles : Nat) : List Nat :=
  (((List.range tiles).filter fun t => !tile_transparent image width t).map
    (tile_bytes image width)).flatten

/-- Control state of the decoder after `t` tiles of a buffer of `n` bytes: the
read offset, the truncated flag and the trace of reads. -/
def decode_ctrl_inv (n t : Nat) (s : decode_state) : Prop :=
  s.rom_offset = 16 * min t (n / 16) ∧
  s.rom_ended = decide (n / 16 < t) ∧
  s.reads = List.range s.rom_offset

/-- Number of pixels of a pixel buffer that carry the transparency flag. -/
def transparent_count (image : List Pixel) : Nat :=
  image.countP fun p => p.transparent

/-- A pixel with its palette index reduced modulo 4 and its transparency unchanged. -/
def mask_index (p : Pixel) : Pixel :=
  { index := p.index % 4, transparent := p.transparent }

/-- An 8×8 pixel buffer whose palette-index bytes range over `0..255`. -/
def wide_image : List Pixel := (List.range 64).map fun k => ⟨k * 37 % 256, false⟩

set_option maxRecDepth 20000

/-- Loop rule: a property that holds before a `for` loop over `0 .. n-1` and is
preserved by the body holds after it. -/
theorem foldl_range_invariant {σ : Type} (f : σ → Nat → σ) (P : Nat → σ → Prop) (n : Nat)
    (s0 : σ) (h0 : P 0 s0) (hstep : ∀ i s, i < n → P i s → P (i + 1) (f s i)) :
    P n ((List.range n).foldl f s0) := by
  induction n with
  | zero => simpa using h0
  | succ m ih =>
    rw [List.range_succ, List.foldl_append]
    simp only [List.foldl_cons, List.foldl_nil]
    exact hstep m _ (Nat.lt_succ_self m)
      (ih (fun i s hi hP => hstep i s (Nat.lt_succ_of_lt hi) hP))

/-- A row-major index determines the coordinates of a pixel. -/
theorem idx_unique (w px py qx qy : Nat) (hp : px < w) (hq : qx < w)
    (h : py * w + px = qy * w + qx) : py = qy ∧ px = qx := by
  have h1 : (py * w + px) / w = py := by
    rw [Nat.add_comm, Nat.add_mul_div_right _ _ (by omega), Nat.div_eq_of_lt hp, Nat.zero_add]
  have h2 : (qy * w + qx) / w = qy := by
    rw [Nat.add_comm, Nat.add_mul_div_right _ _ (by omega), Nat.div_eq_of_lt hq, Nat.zero_add]
  have h3 : py = qy := by rw [← h1, ← h2, h]
  subst h3
  exact ⟨rfl, by omega⟩

theorem and_three (x : Nat) : x &&& 3 = x % 4 := Nat.and_pow_two_sub_one_eq_mod x 2

theorem and_255 (x : Nat) : x &&& 255 = x % 256 := Nat.and_pow_two_sub_one_eq_mod x 8

theorem unpack_pixel_eq (word c : Nat) (hc : c < 8) :
    unpack_pixel word c = word / 4 ^ (7 - c) % 4 := by
  unfold unpack_pixel
  rw [and_three, Nat.shiftRight_eq_div_pow]
  have : 2 ^ (14 - 2 * c) = 4 ^ (7 - c) := by
    rw [show (4:Nat) = 2 ^ 2 from rfl, ← pow_mul]
    congr 1; omega
  rw [this]

/-- After `c` two-bit left shifts of the 16-bit register, its top two bits are pixel `c`
of the word it started from. -/
theorem shifted_pixel (pd c : Nat) (hc : c < 8) :
    ((pd * 4 ^ c % 65536) >>> 14) &&& 3 = unpack_pixel pd c := by
  rw [unpack_pixel_eq _ _ hc, and_three, Nat.shiftRight_eq_div_pow]
  have h8 : c = 0 ∨ c = 1 ∨ c = 2 ∨ c = 3 ∨ c = 4 ∨ c = 5 ∨ c = 6 ∨ c = 7 := by omega
  rcases h8 with rfl | rfl | rfl | rfl | rfl | rfl | rfl | rfl <;> norm_num <;> omega

theorem unpack_pixel_mod (word c : Nat) (hc : c < 8) :
    unpack_pixel (word % 65536) c = unpack_pixel word c := by
  rw [unpack_pixel_eq _ _ hc, unpack_pixel_eq _ _ hc]
  have h8 : c = 0 ∨ c = 1 ∨ c = 2 ∨ c = 3 ∨ c = 4 ∨ c = 5 ∨ c = 6 ∨ c = 7 := by omega
  rcases h8 with rfl | rfl | rfl | rfl | rfl | rfl | rfl | rfl <;> norm_num <;> omega

/-- Result of the `b` loop of the decoder. -/
theorem decode_pixels_spec (s : decode_state) (n : Nat) (hn8 : n ≤ 8)
    (hn : s.p_image_pixel + n ≤ s.image.length) (hpd : s.pixdata < 65536) :
    let s' := (List.range n).foldl decode_pixel s
    s'.p_image_pixel = s.p_image_pixel + n ∧
    s'.pixdata = s.pixdata * 4 ^ n % 65536 ∧
    s'.rom_offset = s.rom_offset ∧ s'.rom_ended = s.rom_ended ∧ s'.reads = s.reads ∧
    s'.image.length = s.image.length ∧
    ∀ k, s'.image[k]? =
      if s.p_image_pixel ≤ k ∧ k < s.p_image_pixel + n
      then some ⟨unpack_pixel s.pixdata (k - s.p_image_pixel), s.rom_ended⟩
      else s.image[k]? := by
  intro s'
  refine foldl_range_invariant decode_pixel
    (fun i t => t.p_image_pixel = s.p_image_pixel + i ∧
      t.pixdata = s.pixdata * 4 ^ i % 65536 ∧
      t.rom_offset = s.rom_offset ∧ t.rom_ended = s.rom_ended ∧ t.reads = s.reads ∧
      t.image.length = s.image.length ∧
      ∀ k, t.image[k]? =
        if s.p_image_pixel ≤ k ∧ k < s.p_image_pixel + i
        then some ⟨unpack_pixel s.pixdata (k - s.p_image_pixel), s.rom_ended⟩
        else s.image[k]?) n s ?_ ?_
  · refine ⟨rfl, ?_, rfl, rfl, rfl, rfl, ?_⟩
    · simp [Nat.mod_eq_of_lt hpd]
    · intro k
      have : ¬ (s.p_image_pixel ≤ k ∧ k < s.p_image_pixel + 0) := by omega
      rw [if_neg this]
  · rintro i t hi ⟨h1, h2, h3, h4, h5, h6, h7⟩
    refine ⟨?_, ?_, h3, h4, h5, ?_, ?_⟩
    · simp [decode_pixel, romimg_set_decoded_pixel_and_advance, h1]; omega
    · simp only [decode_pixel, h2, Nat.shiftLeft_eq]
      rw [Nat.mod_mul_mod]
      congr 1
      ring
    · simp [decode_pixel, romimg_set_decoded_pixel_and_advance, h6]
    · intro k
      have hv : (t.pixdata >>> 14) &&& 3 = unpack_pixel s.pixdata i := by
        rw [h2]; exact shifted_pixel _ _ (by omega)
      simp only [decode_pixel, romimg_set_decoded_pixel_and_advance, List.getElem?_set, h1, hv, h4,
        h6, h7]
      by_cases hk : s.p_image_pixel + i = k
      · subst hk
        have h9 : s.p_image_pixel + i < s.image.length := by omega
        have h10 : s.p_image_pixel ≤ s.p_image_pixel + i ∧
            s.p_image_pixel + i < s.p_image_pixel + (i + 1) := by omega
        rw [if_pos rfl, if_pos h9, if_pos h10, Nat.add_sub_cancel_left]
      · have : (s.p_image_pixel ≤ k ∧ k < s.p_image_pixel + (i + 1)) ↔
            (s.p_image_pixel ≤ k ∧ k < s.p_image_pixel + i) := by omega
        rw [if_neg hk]
        simp only [this]

theorem row_cell_iff (w x Y px py : Nat) (hx : x * 8 + 8 ≤ w) (hpx : px < w) :
    (Y * w + x * 8 ≤ py * w + px ∧ py * w + px < Y * w + x * 8 + 8) ↔ (py = Y ∧ px / 8 = x) := by
  constructor
  · rintro ⟨h1, h2⟩
    have hpy : py = Y := by
      rcases Nat.lt_trichotomy py Y with h | h | h
      · have := Nat.mul_le_mul_right w (Nat.succ_le_of_lt h)
        rw [Nat.succ_mul] at this
        omega
      · exact h
      · have := Nat.mul_le_mul_right w (Nat.succ_le_of_lt h)
        rw [Nat.succ_mul] at this
        omega
    subst hpy
    exact ⟨rfl, by omega⟩
  · rintro ⟨rfl, h⟩
    omega

/-- Result of one iteration of the `ty` loop of the decoder. -/
theorem decode_row_spec (data : List Nat) (width x y ty : Nat) (s : decode_state)
    (hx : x * 8 + 8 ≤ width) (hlen : (y * 8 + ty + 1) * width ≤ s.image.length)
    (hpd : s.pixdata < 65536) :
    let s' := decode_row data width x y s ty
    s'.rom_ended = s.rom_ended ∧
    s'.rom_offset = (if s.rom_ended then s.rom_offset else s.rom_offset + 2) ∧
    s'.reads = (if s.rom_ended then s.reads else s.reads ++ [s.rom_offset, s.rom_offset + 1]) ∧
    s'.pixdata = 0 ∧
    s'.image.length = s.image.length ∧
    ∀ px py, px < width → s'.image[py * width + px]? =
      if py = y * 8 + ty ∧ px / 8 = x
      then some ⟨unpack_pixel (row_word data s) (px % 8), s.rom_ended⟩
      else s.image[py * width + px]? := by
  intro s'
  have hbase : (y * 8 + ty) * width + x * 8 + 8 ≤ s.image.length := by
    rw [Nat.succ_mul] at hlen; omega
  cases he : s.rom_ended with
  | true =>
    have hs' : s' = (List.range 8).foldl decode_pixel
        { s with p_image_pixel := (y * 8 + ty) * width + x * 8 } := by
      simp [s', decode_row, he, PIXELS_PER_WORD, romimg_calc_appimg_offset, rom_attrib]
    obtain ⟨-, h2, h3, h4, h5, h6, h7⟩ := decode_pixels_spec
      { s with p_image_pixel := (y * 8 + ty) * width + x * 8 } 8 (le_refl 8) hbase hpd
    rw [← hs'] at h2 h3 h4 h5 h6 h7
    refine ⟨by simpa [he] using h4, by simpa using h3, by simpa using h5, ?_, h6, ?_⟩
    · rw [h2]; norm_num
    · intro px py hpx
      rw [h7]
      simp only [row_cell_iff width x (y * 8 + ty) px py hx hpx, row_word, he, if_true]
      split
      · next hc =>
        obtain ⟨hc1, hc2⟩ := hc
        subst hc1
        have hk : (y * 8 + ty) * width + px - ((y * 8 + ty) * width + x * 8) = px % 8 := by omega
        rw [hk]
      · rfl
  | false =>
    have hs' : s' = (List.range 8).foldl decode_pixel
        { s with p_image_pixel := (y * 8 + ty) * width + x * 8
                 pixdata := packed_word data s.rom_offset % 65536
                 reads := s.reads ++ [s.rom_offset, s.rom_offset + 1]
                 rom_offset := s.rom_offset + 2 } := by
      simp [s', decode_row, he, PIXELS_PER_WORD, romimg_calc_appimg_offset, rom_attrib,
        decode_read_word, packed_word]
    obtain ⟨-, h2, h3, h4, h5, h6, h7⟩ := decode_pixels_spec
      { s with p_image_pixel := (y * 8 + ty) * width + x * 8
               pixdata := packed_word data s.rom_offset % 65536
               reads := s.reads ++ [s.rom_offset, s.rom_offset + 1]
               rom_offset := s.rom_offset + 2 } 8 (le_refl 8) hbase (Nat.mod_lt _ (by norm_num))
    rw [← hs'] at h2 h3 h4 h5 h6 h7
    refine ⟨by simpa [he] using h4, by simpa using h3, by simpa using h5, ?_, h6, ?_⟩
    · rw [h2]; norm_num
    · intro px py hpx
      rw [h7]
      simp only [row_cell_iff width x (y * 8 + ty) px py hx hpx, row_word, he]
      split
      · next hc =>
        obtain ⟨hc1, hc2⟩ := hc
        subst hc1
        have hk : (y * 8 + ty) * width + px - ((y * 8 + ty) * width + x * 8) = px % 8 := by omega
        rw [hk]
        simp
      · rfl

/-- Result of one iteration of the `x` loop of the decoder. -/
theorem decode_tile_spec (data : List Nat) (n width x y : Nat) (s : decode_state)
    (hx : x * 8 + 8 ≤ width) (hlen : (y * 8 + 8) * width ≤ s.image.length)
    (hpd : s.pixdata < 65536) (hreads : s.reads = List.range s.rom_offset) :
    let e := s.rom_ended || decide (n < s.rom_offset + 16)
    let s' := decode_tile data (n : Int) width y s x
    s'.rom_ended = e ∧
    s'.rom_offset = (if e then s.rom_offset else s.rom_offset + 16) ∧
    s'.reads = List.range s'.rom_offset ∧
    s'.pixdata = 0 ∧
    s'.image.length = s.image.length ∧
    ∀ px py, px < width → s'.image[py * width + px]? =
      if py / 8 = y ∧ px / 8 = x
      then some ⟨unpack_pixel (tile_row_word data e s.pixdata s.rom_offset (py % 8)) (px % 8), e⟩
      else s.image[py * width + px]? := by
  intro e s'
  have hs1 : (if ((s.rom_offset + tile_size_in_bytes : Nat) : Int) > (n : Int)
      then { s with rom_ended := true } else s) = { s with rom_ended := e } := by
    have h16 : tile_size_in_bytes = 16 := rfl
    rw [h16]
    by_cases hc : n < s.rom_offset + 16
    · have : ((s.rom_offset + 16 : Nat) : Int) > (n : Int) := by exact_mod_cast hc
      rw [if_pos this]
      simp [e, hc]
    · have : ¬ ((s.rom_offset + 16 : Nat) : Int) > (n : Int) := by
        intro h; exact hc (by exact_mod_cast h)
      rw [if_neg this]
      simp [e, hc]
  have key := foldl_range_invariant (decode_row data width x y)
    (fun r t => t.rom_ended = e ∧
      t.rom_offset = (if e then s.rom_offset else s.rom_offset + 2 * r) ∧
      t.reads = List.range t.rom_offset ∧
      t.pixdata = (if r = 0 then s.pixdata else 0) ∧
      t.image.length = s.image.length ∧
      ∀ px py, px < width → t.image[py * width + px]? =
        if (py / 8 = y ∧ py % 8 < r) ∧ px / 8 = x
        then some ⟨unpack_pixel (tile_row_word data e s.pixdata s.rom_offset (py % 8)) (px % 8), e⟩
        else s.image[py * width + px]?) 8 { s with rom_ended := e } ?_ ?_
  · have hs' : s' = (List.range 8).foldl (decode_row data width x y) { s with rom_ended := e } := by
      simp only [s', decode_tile, hs1]
      rfl
    rw [← hs'] at key
    obtain ⟨k1, k2, k3, k4, k5, k6⟩ := key
    refine ⟨k1, ?_, k3, by simpa using k4, k5, ?_⟩
    · rw [k2]
    · intro px py hpx
      rw [k6 px py hpx]
      have : ((py / 8 = y ∧ py % 8 < 8) ∧ px / 8 = x) ↔ (py / 8 = y ∧ px / 8 = x) := by omega
      simp only [this]
  · refine ⟨rfl, by cases e <;> simp, by cases e <;> simpa using hreads, by simp, rfl, ?_⟩
    intro px py _
    have : ¬ ((py / 8 = y ∧ py % 8 < 0) ∧ px / 8 = x) := by omega
    rw [if_neg this]
  · rintro r t hr ⟨k1, k2, k3, k4, k5, k6⟩
    have hpdt : t.pixdata < 65536 := by rw [k4]; split <;> omega
    have hl : (y * 8 + r + 1) * width ≤ t.image.length := by
      rw [k5]
      exact le_trans (Nat.mul_le_mul_right width (by omega)) hlen
    obtain ⟨r1, r2, r3, r4, r5, r6⟩ := decode_row_spec data width x y r t hx hl hpdt
    have hw : row_word data t = tile_row_word data e s.pixdata s.rom_offset r := by
      unfold row_word tile_row_word
      rw [k1, k2, k4]
      cases e <;> simp
    refine ⟨r1.trans k1, ?_, ?_, by simpa using r4, r5.trans k5, ?_⟩
    · rw [r2, k1, k2]; cases e <;> simp; omega
    · rw [r2, r3, k1, k3]
      cases e
      · simp [List.range_succ]
      · simp
    · intro px py hpx
      rw [r6 px py hpx, k6 px py hpx, hw, k1]
      by_cases hc : py = y * 8 + r ∧ px / 8 = x
      · have h2 : (py / 8 = y ∧ py % 8 < r + 1) ∧ px / 8 = x := by omega
        have h3 : py % 8 = r := by omega
        rw [if_pos hc, if_pos h2, h3]
      · rw [if_neg hc]
        by_cases hd : (py / 8 = y ∧ py % 8 < r) ∧ px / 8 = x
        · have h2 : (py / 8 = y ∧ py % 8 < r + 1) ∧ px / 8 = x := by omega
          rw [if_pos hd, if_pos h2]
        · have h2 : ¬ ((py / 8 = y ∧ py % 8 < r + 1) ∧ px / 8 = x) := by omega
          rw [if_neg hd, if_neg h2]

theorem unpack_pixel_zero (c : Nat) : unpack_pixel 0 c = 0 := by
  simp [unpack_pixel]

theorem tile_index_eq_iff (width px py x y : Nat) (hw : width % 8 = 0) (hpx : px < width)
    (hx : x < width / 8) :
    tile_index width px py = y * (width / 8) + x ↔ (py / 8 = y ∧ px / 8 = x) := by
  unfold tile_index
  constructor
  · intro h
    exact idx_unique (width / 8) (px / 8) (py / 8) x y (by omega) hx h
  · rintro ⟨rfl, rfl⟩
    rfl

/-- One tile step takes the decoder invariant from `t` tiles to `t + 1`. -/
theorem decode_inv_step (pixdata0 : Nat) (data : List Nat) (n width : Nat) (image : List Pixel)
    (x y : Nat) (s : decode_state) (hw : width % 8 = 0) (hx : x < width / 8)
    (hlen : (y * 8 + 8) * width ≤ image.length)
    (h : decode_inv pixdata0 data n width image (y * (width / 8) + x) s) :
    decode_inv pixdata0 data n width image (y * (width / 8) + x + 1)
      (decode_tile data (n : Int) width y s x) := by
  obtain ⟨h1, h2, h3, h4, h5, h6⟩ := h
  have hpd : s.pixdata < 65536 := by
    rw [h4]; split
    · exact Nat.mod_lt _ (by norm_num)
    · norm_num
  obtain ⟨r1, r2, r3, r4, r5, r6⟩ := decode_tile_spec data n width x y s (by omega)
    (by rw [h5]; exact hlen) hpd h3
  have hti := fun px py (hpx : px < width) => tile_index_eq_iff width px py x y hw hpx hx
  generalize y * (width / 8) + x = t at h1 h2 h4 h6 hti ⊢
  have he : (s.rom_ended || decide (n < s.rom_offset + 16)) = decide (n / 16 < t + 1) := by
    rw [h1, h2]
    by_cases hc : t < n / 16
    · have e1 : ¬ (n / 16 < t) := by omega
      have e2 : ¬ (n < 16 * min t (n / 16) + 16) := by omega
      have e3 : ¬ (n / 16 < t + 1) := by omega
      simp [e1, e2, e3]
    · have e2 : n < 16 * min t (n / 16) + 16 := by omega
      have e3 : n / 16 < t + 1 := by omega
      simp [e2, e3]
  rw [he] at r1 r2 r6
  refine ⟨?_, r1, r3, by simpa using r4, r5.trans h5, ?_⟩
  · rw [r2, h1]
    by_cases hc : t < n / 16
    · have e3 : ¬ (n / 16 < t + 1) := by omega
      simp only [e3, decide_False, Bool.false_eq_true, if_false]; omega
    · have e3 : n / 16 < t + 1 := by omega
      simp only [e3, decide_True, if_true]; omega
  · intro px py hpx
    rw [r6 px py hpx, h6 px py hpx]
    by_cases hc : py / 8 = y ∧ px / 8 = x
    · have hidx : tile_index width px py = t := (hti px py hpx).2 hc
      have hlt : tile_index width px py < t + 1 := by omega
      rw [if_pos hc, if_pos hlt]
      refine congrArg some ?_
      unfold decoded_pixel
      rw [hidx]
      by_cases hd : t < n / 16
      · have e3 : ¬ (n / 16 < t + 1) := by omega
        have e4 : min t (n / 16) = t := by omega
        simp only [e3, decide_False, if_pos hd, tile_row_word, h1, e4, Bool.false_eq_true, if_false]
        rw [unpack_pixel_mod _ _ (by omega)]
      · have e3 : n / 16 < t + 1 := by omega
        simp only [e3, decide_True, if_neg hd, tile_row_word, h4, if_true]
        by_cases h0 : t = 0
        · by_cases hr : py % 8 = 0
          · simp [h0, hr]
          · simp [h0, hr, unpack_pixel_zero]
        · by_cases hr : py % 8 = 0
          · simp [h0, hr, unpack_pixel_zero]
          · simp [h0, hr, unpack_pixel_zero]
    · have hne : tile_index width px py ≠ t := fun hh => hc ((hti px py hpx).1 hh)
      rw [if_neg hc]
      by_cases hd : tile_index width px py < t
      · rw [if_pos hd, if_pos (by omega)]
      · rw [if_neg hd, if_neg (by omega)]

theorem decode_tile_row_inv (pixdata0 : Nat) (data : List Nat) (n width : Nat)
    (image : List Pixel) (y : Nat) (s : decode_state) (hw : width % 8 = 0)
    (hlen : (y * 8 + 8) * width ≤ image.length)
    (h : decode_inv pixdata0 data n width image (y * (width / 8)) s) :
    decode_inv pixdata0 data n width image ((y + 1) * (width / 8))
      (decode_tile_row data (n : Int) width s y) := by
  have key := foldl_range_invariant (decode_tile data (n : Int) width y)
    (fun x t => decode_inv pixdata0 data n width image (y * (width / 8) + x) t)
    (width / 8) s h
    (fun x t hx ht => decode_inv_step pixdata0 data n width image x y t hw hx hlen ht)
  rw [Nat.succ_mul]
  exact key

/-- The decoder invariant holds for all tiles after the loop nest. -/
theorem bin_decode_loops_inv (pixdata0 : Nat) (data : List Nat) (n width height : Nat)
    (image : List Pixel) (hw : width % 8 = 0) (hlen : height * width ≤ image.length) :
    decode_inv pixdata0 data n width image (height / 8 * (width / 8))
      (bin_decode_loops pixdata0 data (n : Int) image width height) := by
  refine foldl_range_invariant (decode_tile_row data (n : Int) width)
    (fun y t => decode_inv pixdata0 data n width image (y * (width / 8)) t)
    (height / 8) _ ?_ ?_
  · refine ⟨by simp, by simp, by simp, by simp, rfl, ?_⟩
    intro px py _
    simp
  · intro y t hy ht
    refine decode_tile_row_inv pixdata0 data n width image y t hw ?_ ht
    exact le_trans (Nat.mul_le_mul_right width (by omega)) hlen

/-- Every pixel of a tile-aligned `width × height` target after the loop nest of the decoder. -/
theorem bin_decode_loops_pixel (pixdata0 : Nat) (data : List Nat) (n width height : Nat)
    (image : List Pixel) (hw : width % 8 = 0) (hh : height % 8 = 0)
    (hlen : height * width ≤ image.length) (px py : Nat) (hpx : px < width) (hpy : py < height) :
    (bin_decode_loops pixdata0 data (n : Int) image width height).image[py * width + px]? =
      some (decoded_pixel pixdata0 data n width px py) := by
  obtain ⟨-, -, -, -, -, h6⟩ := bin_decode_loops_inv pixdata0 data n width height image hw hlen
  rw [h6 px py hpx, if_pos]
  unfold tile_index
  have h1 : py / 8 + 1 ≤ height / 8 := by omega
  have h2 := Nat.mul_le_mul_right (width / 8) h1
  rw [Nat.succ_mul] at h2
  omega

theorem pack_pixels_succ (image : List Pixel) (base m : Nat) :
    pack_pixels image base (m + 1) =
      pack_pixels image base m * 4 + (image.getD (base + m) default).index % 4 := by
  simp [pack_pixels, List.range_succ]

theorem pack_pixels_lt (image : List Pixel) (base m : Nat) : pack_pixels image base m < 4 ^ m := by
  induction m with
  | zero => simp [pack_pixels]
  | succ k ih =>
    rw [pack_pixels_succ, pow_succ]
    have := Nat.mod_lt (image.getD (base + k) default).index (show 0 < 4 by norm_num)
    omega

theorem pack_step (out v : Nat) (h : out < 16384) :
    ((out <<< 2) % 65536) ||| (v &&& 3) = out * 4 + v % 4 := by
  rw [and_three, Nat.shiftLeft_eq, Nat.mod_eq_of_lt (by omega)]
  have := Nat.mul_add_lt_is_or (show v % 4 < 2 ^ 2 from Nat.mod_lt _ (by norm_num)) out
  rw [show out * 2 ^ 2 = 2 ^ 2 * out from Nat.mul_comm _ _, ← this]
  ring

theorem or_bit_eq_zero (f : Nat) (b : Bool) :
    (f ||| (if b then 0 else 1)) = 0 ↔ (f = 0 ∧ b = true) := by
  cases b
  · have h1 : f ||| 1 ≠ 0 := by
      intro h
      have h2 := congrArg (fun z => Nat.testBit z 0) h
      simp [Nat.testBit_or] at h2
    simpa using h1
  · simp

/-- Result of the `b` loop of the encoder. -/
theorem encode_pixels_spec (image : List Pixel) (s : encode_state) (n : Nat) (hn8 : n ≤ 8)
    (hout : s.output = 0) :
    let s' := (List.range n).foldl (encode_pixel image) s
    s'.p_image_pixel = s.p_image_pixel + n ∧
    s'.output = pack_pixels image s.p_image_pixel n ∧
    (s'.transparency_flag = 0 ↔ (s.transparency_flag = 0 ∧
      ∀ c, c < n → (image.getD (s.p_image_pixel + c) default).transparent = true)) ∧
    s'.rom_offset = s.rom_offset ∧ s'.empty_tile_count = s.empty_tile_count ∧
    s'.data = s.data ∧ s'.writes = s.writes := by
  intro s'
  refine foldl_range_invariant (encode_pixel image)
    (fun i t => t.p_image_pixel = s.p_image_pixel + i ∧
      t.output = pack_pixels image s.p_image_pixel i ∧
      (t.transparency_flag = 0 ↔ (s.transparency_flag = 0 ∧
        ∀ c, c < i → (image.getD (s.p_image_pixel + c) default).transparent = true)) ∧
      t.rom_offset = s.rom_offset ∧ t.empty_tile_count = s.empty_tile_count ∧
      t.data = s.data ∧ t.writes = s.writes) n s ?_ ?_
  · refine ⟨rfl, by simpa [pack_pixels] using hout, by simp, rfl, rfl, rfl, rfl⟩
  · rintro i t hi ⟨h1, h2, h3, h4, h5, h6, h7⟩
    refine ⟨?_, ?_, ?_, h4, h5, h6, h7⟩
    · simp only [encode_pixel, h1]; omega
    · have hlt : t.output < 16384 := by
        rw [h2]
        have := pack_pixels_lt image s.p_image_pixel i
        have h47 : 4 ^ i ≤ 4 ^ 7 := Nat.pow_le_pow_right (by norm_num) (by omega)
        norm_num at h47
        omega
      simp only [encode_pixel]
      rw [pack_step _ _ hlt, pack_pixels_succ, h2, h1]
    · simp only [encode_pixel, romimg_log_transparent_pixel]
      rw [or_bit_eq_zero, h3, h1]
      constructor
      · rintro ⟨⟨ha, hb⟩, hc⟩
        refine ⟨ha, fun c hci => ?_⟩
        rcases Nat.lt_succ_iff_lt_or_eq.1 hci with h | h
        · exact hb c h
        · rw [h]; exact hc
      · rintro ⟨ha, hb⟩
        exact ⟨⟨ha, fun c hci => hb c (Nat.lt_succ_of_lt hci)⟩, hb i (Nat.lt_succ_self i)⟩

/-- Result of one iteration of the `ty` loop of the encoder. -/
theorem encode_row_spec (image : List Pixel) (width x y ty : Nat) (s : encode_state)
    (hlen : s.rom_offset + 2 ≤ s.data.length) :
    let base := (y * 8 + ty) * width + x * 8
    let s' := encode_row image width x y s ty
    s'.rom_offset = s.rom_offset + 2 ∧
    s'.writes = s.writes ++ [s.rom_offset, s.rom_offset + 1] ∧
    (s'.transparency_flag = 0 ↔ (s.transparency_flag = 0 ∧
      ∀ c, c < 8 → (image.getD (base + c) default).transparent = true)) ∧
    s'.empty_tile_count = s.empty_tile_count ∧
    s'.data.length = s.data.length ∧
    ∀ j, s'.data[j]? =
      if s.rom_offset ≤ j ∧ j < s.rom_offset + 2
      then some (word_byte (pack_pixels image base 8) (j - s.rom_offset))
      else s.data[j]? := by
  intro base s'
  obtain ⟨h1, h2, h3, h4, h5, h6, h7⟩ := encode_pixels_spec image
    { s with p_image_pixel := base, output := 0 } 8 (le_refl 8) rfl
  have hs' : s' = encode_write_word ((List.range 8).foldl (encode_pixel image)
      { s with p_image_pixel := base, output := 0 }) := by
    simp [s', base, encode_row, PIXELS_PER_WORD, romimg_calc_appimg_offset, rom_attrib]
  generalize (List.range 8).foldl (encode_pixel image)
    { s with p_image_pixel := base, output := 0 } = t at h1 h2 h3 h4 h5 h6 h7 hs'
  simp only at h2 h3 h4 h5 h6 h7
  rw [hs']
  refine ⟨?_, ?_, ?_, ?_, ?_, ?_⟩
  · simp [encode_write_word, h4]
  · simp [encode_write_word, h4, h7]
  · simpa [encode_write_word] using h3
  · simpa [encode_write_word] using h5
  · simp [encode_write_word, h6]
  · intro j
    simp only [encode_write_word, List.getElem?_set, List.length_set, h4, h6, h2]
    by_cases h0 : s.rom_offset = j
    · subst h0
      have e1 : ¬ (s.rom_offset + 1 = s.rom_offset) := by omega
      have e2 : s.rom_offset < s.data.length := by omega
      have e3 : s.rom_offset ≤ s.rom_offset ∧ s.rom_offset < s.rom_offset + 2 := by omega
      rw [if_neg e1, if_pos rfl, if_pos e2, if_pos e3, Nat.sub_self]
      rfl
    · by_cases h1 : s.rom_offset + 1 = j
      · subst h1
        have e2 : s.rom_offset + 1 < s.data.length := by omega
        have e3 : s.rom_offset ≤ s.rom_offset + 1 ∧ s.rom_offset + 1 < s.rom_offset + 2 := by
          omega
        rw [if_pos rfl, if_pos e2, if_pos e3, Nat.add_sub_cancel_left]
        rfl
      · have e3 : ¬ (s.rom_offset ≤ j ∧ j < s.rom_offset + 2) := by omega
        rw [if_neg h1, if_neg h0, if_neg e3]

/-- Result of one iteration of the `x` loop of the encoder. -/
theorem encode_tile_spec (image : List Pixel) (width x y : Nat) (s : encode_state)
    (hlen : s.rom_offset + 16 ≤ s.data.length) (hwr : s.writes = List.range s.rom_offset) :
    let s' := encode_tile image width y s x
    s'.rom_offset = s.rom_offset + 16 ∧
    s'.writes = List.range s'.rom_offset ∧
    s'.empty_tile_count = (if (∀ r, r < 8 → ∀ c, c < 8 →
        (image.getD ((y * 8 + r) * width + x * 8 + c) default).transparent = true)
      then s.empty_tile_count + 1 else s.empty_tile_count) ∧
    s'.data.length = s.data.length ∧
    ∀ j, s'.data[j]? =
      if s.rom_offset ≤ j ∧ j < s.rom_offset + 16
      then some (word_byte (pack_pixels image ((y * 8 + (j - s.rom_offset) / 2) * width + x * 8) 8)
        ((j - s.rom_offset) % 2))
      else s.data[j]? := by
  intro s'
  have key := foldl_range_invariant (encode_row image width x y)
    (fun r t => t.rom_offset = s.rom_offset + 2 * r ∧
      t.writes = List.range t.rom_offset ∧
      (t.transparency_flag = 0 ↔ ∀ r', r' < r → ∀ c, c < 8 →
        (image.getD ((y * 8 + r') * width + x * 8 + c) default).transparent = true) ∧
      t.empty_tile_count = s.empty_tile_count ∧
      t.data.length = s.data.length ∧
      ∀ j, t.data[j]? =
        if s.rom_offset ≤ j ∧ j < s.rom_offset + 2 * r
        then some (word_byte
          (pack_pixels image ((y * 8 + (j - s.rom_offset) / 2) * width + x * 8) 8)
          ((j - s.rom_offset) % 2))
        else s.data[j]?) 8 { s with transparency_flag := 0 } ?_ ?_
  · generalize hfold : (List.range 8).foldl (encode_row image width x y)
      { s with transparency_flag := 0 } = t at key
    have hs' : s' = { t with empty_tile_count :=
        romimg_log_transparent_tiles t.transparency_flag t.empty_tile_count } := by
      simp only [s', encode_tile]
      rw [show rom_attrib.TILE_PIXEL_HEIGHT = 8 from rfl, hfold]
    obtain ⟨k1, k2, k3, k4, k5, k6⟩ := key
    rw [hs']
    refine ⟨by simpa using k1, by simpa using k2, ?_, by simpa using k5, ?_⟩
    · simp only [romimg_log_transparent_tiles, k4]
      by_cases hf : t.transparency_flag = 0
      · rw [if_pos hf, if_pos (k3.1 hf)]
      · rw [if_neg hf, if_neg (fun h => hf (k3.2 h))]
    · intro j
      simpa using k6 j
  · refine ⟨rfl, hwr, ?_, rfl, rfl, ?_⟩
    · simp
    · intro j
      have : ¬ (s.rom_offset ≤ j ∧ j < s.rom_offset + 2 * 0) := by omega
      rw [if_neg this]
  · rintro r t hr ⟨k1, k2, k3, k4, k5, k6⟩
    obtain ⟨r1, r2, r3, r4, r5, r6⟩ := encode_row_spec image width x y r t (by omega)
    refine ⟨by omega, ?_, ?_, r4.trans k4, r5.trans k5, ?_⟩
    · rw [r2, r1, k2, List.range_succ, List.range_succ]
      simp
    · rw [r3, k3]
      constructor
      · rintro ⟨ha, hb⟩ r' hr' c hc
        rcases Nat.lt_succ_iff_lt_or_eq.1 hr' with h | h
        · exact ha r' h c hc
        · rw [h]; exact hb c hc
      · intro h
        exact ⟨fun r' hr' c hc => h r' (Nat.lt_succ_of_lt hr') c hc,
          fun c hc => h r (Nat.lt_succ_self r) c hc⟩
    · intro j
      rw [r6 j, k6 j, k1]
      by_cases hc : s.rom_offset + 2 * r ≤ j ∧ j < s.rom_offset + 2 * r + 2
      · have h2 : s.rom_offset ≤ j ∧ j < s.rom_offset + 2 * (r + 1) := by omega
        have h3 : (j - s.rom_offset) / 2 = r := by omega
        have h4 : j - (s.rom_offset + 2 * r) = (j - s.rom_offset) % 2 := by omega
        rw [if_pos hc, if_pos h2, h3, h4]
      · rw [if_neg hc]
        by_cases hd : s.rom_offset ≤ j ∧ j < s.rom_offset + 2 * r
        · rw [if_pos hd, if_pos (by omega)]
        · rw [if_neg hd, if_neg (by omega)]

theorem tile_transparent_iff (image : List Pixel) (width x y : Nat) (hx : x < width / 8) :
    tile_transparent image width (y * (width / 8) + x) = true ↔
      (∀ r, r < 8 → ∀ c, c < 8 →
        (image.getD ((y * 8 + r) * width + x * 8 + c) default).transparent = true) := by
  have h1 : (y * (width / 8) + x) % (width / 8) = x := by
    rw [Nat.add_comm, Nat.add_mul_mod_self_right, Nat.mod_eq_of_lt hx]
  have h2 : (y * (width / 8) + x) / (width / 8) = y := by
    rw [Nat.add_comm, Nat.add_mul_div_right _ _ (by omega), Nat.div_eq_of_lt hx, Nat.zero_add]
  simp only [tile_transparent, h1, h2, List.all_eq_true, List.mem_range, romimg_calc_appimg_offset,
    rom_attrib]

/-- One tile step takes the encoder invariant from `t` tiles to `t + 1`. -/
theorem encode_inv_step (image : List Pixel) (width : Nat) (data : List Nat) (x y : Nat)
    (s : encode_state) (hx : x < width / 8)
    (hlen : 16 * (y * (width / 8) + x + 1) ≤ data.length)
    (h : encode_inv image width data (y * (width / 8) + x) s) :
    encode_inv image width data (y * (width / 8) + x + 1) (encode_tile image width y s x) := by
  obtain ⟨h1, h2, h3, h4, h5⟩ := h
  obtain ⟨r1, r2, r3, r4, r5⟩ := encode_tile_spec image width x y s (by omega) h2
  have htr := tile_transparent_iff image width x y hx
  have hm : (y * (width / 8) + x) % (width / 8) = x := by
    rw [Nat.add_comm, Nat.add_mul_mod_self_right, Nat.mod_eq_of_lt hx]
  have hd : (y * (width / 8) + x) / (width / 8) = y := by
    rw [Nat.add_comm, Nat.add_mul_div_right _ _ (by omega), Nat.div_eq_of_lt hx, Nat.zero_add]
  generalize y * (width / 8) + x = t at h1 h3 h5 hlen htr hm hd ⊢
  refine ⟨by omega, r2, ?_, r4.trans h4, ?_⟩
  · rw [r3, h3, List.range_succ, List.countP_append]
    by_cases hc : tile_transparent image width t = true
    · rw [if_pos (htr.1 hc)]
      simp [hc]
    · rw [if_neg (fun hh => hc (htr.2 hh))]
      simp [hc]
  · intro j
    rw [r5 j, h5 j, h1]
    by_cases hc : 16 * t ≤ j ∧ j < 16 * t + 16
    · have e1 : j < 16 * (t + 1) := by omega
      have e2 : j / 16 = t := by omega
      have e3 : (j - 16 * t) / 2 = j % 16 / 2 := by omega
      have e4 : (j - 16 * t) % 2 = j % 2 := by omega
      rw [if_pos hc, if_pos e1, e3, e4]
      simp only [encoded_byte, e2, hm, hd, romimg_calc_appimg_offset, rom_attrib]
    · rw [if_neg hc]
      by_cases hd : j < 16 * t
      · rw [if_pos hd, if_pos (by omega)]
      · rw [if_neg hd, if_neg (by omega)]

theorem encode_tile_row_inv (image : List Pixel) (width : Nat) (data : List Nat) (y : Nat)
    (s : encode_state) (hlen : 16 * ((y + 1) * (width / 8)) ≤ data.length)
    (h : encode_inv image width data (y * (width / 8)) s) :
    encode_inv image width data ((y + 1) * (width / 8)) (encode_tile_row image width s y) := by
  have hsm : (y + 1) * (width / 8) = y * (width / 8) + width / 8 := Nat.succ_mul _ _
  rw [hsm] at hlen ⊢
  exact foldl_range_invariant (encode_tile image width y)
    (fun x t => encode_inv image width data (y * (width / 8) + x) t) (width / 8) s h
    (fun x t hx ht => encode_inv_step image width data x y t hx (by omega) ht)

/-- The encoder invariant holds for all tiles after the loop nest. -/
theorem bin_encode_loops_inv (image : List Pixel) (data : List Nat) (width height : Nat)
    (hlen : 16 * (height / 8 * (width / 8)) ≤ data.length) :
    encode_inv image width data (height / 8 * (width / 8))
      (bin_encode_loops image data width height) := by
  refine foldl_range_invariant (encode_tile_row image width)
    (fun y t => encode_inv image width data (y * (width / 8)) t) (height / 8) _ ?_ ?_
  · refine ⟨by simp, by simp, by simp, rfl, ?_⟩
    intro j
    simp
  · intro y t hy ht
    refine encode_tile_row_inv image width data y t ?_ ht
    have h1 : (y + 1) * (width / 8) ≤ height / 8 * (width / 8) :=
      Nat.mul_le_mul_right (width / 8) (Nat.succ_le_of_lt hy)
    omega

theorem pack_pixels_eight (image : List Pixel) (base : Nat) :
    pack_pixels image base 8 =
      (image.getD base default).index % 4 * 16384 + (image.getD (base + 1) default).index % 4 * 4096 +
      (image.getD (base + 2) default).index % 4 * 1024 + (image.getD (base + 3) default).index % 4 * 256 +
      (image.getD (base + 4) default).index % 4 * 64 + (image.getD (base + 5) default).index % 4 * 16 +
      (image.getD (base + 6) default).index % 4 * 4 + (image.getD (base + 7) default).index % 4 := by
  simp only [pack_pixels_succ, show pack_pixels image base 0 = 0 from rfl, Nat.add_zero]
  omega

/-- Unpacking column `c` of a packed row gives the index of pixel `c` modulo 4. -/
theorem unpack_pack (image : List Pixel) (base c : Nat) (hc : c < 8) :
    unpack_pixel (pack_pixels image base 8) c = (image.getD (base + c) default).index % 4 := by
  rw [unpack_pixel_eq _ _ hc, pack_pixels_eight]
  have h8 : c = 0 ∨ c = 1 ∨ c = 2 ∨ c = 3 ∨ c = 4 ∨ c = 5 ∨ c = 6 ∨ c = 7 := by omega
  rcases h8 with rfl | rfl | rfl | rfl | rfl | rfl | rfl | rfl <;> norm_num <;> omega

/-- Packing a row of pixels unpacked from `word` gives back its low 16 bits. -/
theorem pack_unpack (image : List Pixel) (base word : Nat)
    (h : ∀ c, c < 8 → (image.getD (base + c) default).index = unpack_pixel word c) :
    pack_pixels image base 8 = word % 65536 := by
  rw [pack_pixels_eight]
  have h0 := h 0 (by norm_num)
  rw [Nat.add_zero] at h0
  rw [h0, h 1 (by norm_num), h 2 (by norm_num), h 3 (by norm_num), h 4 (by norm_num),
    h 5 (by norm_num), h 6 (by norm_num), h 7 (by norm_num)]
  simp only [unpack_pixel_eq _ _ (show 0 < 8 by norm_num), unpack_pixel_eq _ _ (show 1 < 8 by norm_num),
    unpack_pixel_eq _ _ (show 2 < 8 by norm_num), unpack_pixel_eq _ _ (show 3 < 8 by norm_num),
    unpack_pixel_eq _ _ (show 4 < 8 by norm_num), unpack_pixel_eq _ _ (show 5 < 8 by norm_num),
    unpack_pixel_eq _ _ (show 6 < 8 by norm_num), unpack_pixel_eq _ _ (show 7 < 8 by norm_num)]
  norm_num
  omega

theorem shl8_or (a b : Nat) (hb : b < 256) : b ||| (a <<< 8) = a * 256 + b := by
  rw [Nat.shiftLeft_eq, Nat.or_comm, Nat.mul_comm a (2 ^ 8)]
  exact (Nat.mul_add_lt_is_or (show b < 2 ^ 8 from hb) a).symm.trans (by ring)

/-- The two bytes emitted for a 16-bit word reassemble to it, low byte first. -/
theorem word_bytes_join (w : Nat) (hw : w < 65536) :
    word_byte w 0 ||| (word_byte w 1 <<< 8) = w := by
  have h0 : word_byte w 0 = w % 256 := by
    simp only [word_byte, if_true]; exact and_255 w
  have h1 : word_byte w 1 = w / 256 % 256 := by
    simp only [word_byte, if_neg (show ¬ (1 = 0) by norm_num)]
    rw [show (0xFF : Nat) = 255 from rfl, and_255, Nat.shiftRight_eq_div_pow]
  rw [h0, h1, shl8_or _ _ (Nat.mod_lt _ (by norm_num))]
  omega

theorem packed_word_bytes (data : List Nat) (o : Nat) (h0 : data.getD o 0 < 256)
    (h1 : data.getD (o + 1) 0 < 256) :
    packed_word data o < 65536 ∧ word_byte (packed_word data o) 0 = data.getD o 0 ∧
      word_byte (packed_word data o) 1 = data.getD (o + 1) 0 := by
  have hp : packed_word data o = data.getD (o + 1) 0 * 256 + data.getD o 0 := shl8_or _ _ h0
  refine ⟨by omega, ?_, ?_⟩
  · simp only [word_byte, if_true]
    rw [show (0xFF : Nat) = 255 from rfl, and_255, hp]; omega
  · simp only [word_byte, if_neg (show ¬ (1 = 0) by norm_num)]
    rw [show (0xFF : Nat) = 255 from rfl, and_255, Nat.shiftRight_eq_div_pow, hp]; omega

theorem quad_or (a b c d : Nat) (ha : a < 4) (hb : b < 4) (hc : c < 4) (hd : d < 4) :
    (a <<< 6) ||| (b <<< 4) ||| (c <<< 2) ||| d = a * 64 + b * 16 + c * 4 + d := by
  have key : ∀ a b c d : Fin 4,
      (a.val <<< 6) ||| (b.val <<< 4) ||| (c.val <<< 2) ||| d.val =
        a.val * 64 + b.val * 16 + c.val * 4 + d.val := by decide
  exact key ⟨a, ha⟩ ⟨b, hb⟩ ⟨c, hc⟩ ⟨d, hd⟩

/-- On present buffers and nonzero dimensions `bin_decode_image` runs the loop nest
and returns 0. -/
theorem bin_decode_image_eq (pixdata0 : Nat) (data : List Nat) (size : Int) (target : List Pixel)
    (w h : Nat) (hw : 0 < w) (hh : 0 < h) :
    bin_decode_image pixdata0 ⟨some data, size⟩ ⟨some target, w, h⟩ =
      (0, ⟨some (bin_decode_loops pixdata0 data size target w h).image, w, h⟩) := by
  have h1 : ¬ (w = 0 ∨ h = 0) := by omega
  simp only [bin_decode_image, if_neg h1]

/-- On present buffers, nonzero size and nonzero dimensions `bin_encode_image` runs
the loop nest, subtracts the empty tiles and returns 0. -/
theorem bin_encode_image_eq (data : List Nat) (size : Int) (image : List Pixel)
    (w h : Nat) (hs : size ≠ 0) (hw : 0 < w) (hh : 0 < h) :
    bin_encode_image ⟨some data, size⟩ ⟨some image, w, h⟩ =
      (0, ⟨some (bin_encode_loops image data w h).data,
        size - ((bin_encode_loops image data w h).empty_tile_count * 16 : Nat)⟩) := by
  have h1 : ¬ (size = 0 ∨ w = 0 ∨ h = 0) := by
    rintro (h | h | h)
    · exact hs h
    · omega
    · omega
  simp only [bin_encode_image, if_neg h1]
  rfl

theorem decoded_length (pixdata0 : Nat) (data : List Nat) (n w h : Nat) (target : List Pixel)
    (hw : w % 8 = 0) (htl : target.length = w * h) :
    (bin_decode_loops pixdata0 data (n : Int) target w h).image.length = w * h := by
  obtain ⟨-, -, -, -, h5, -⟩ := bin_decode_loops_inv pixdata0 data n w h target hw
    (by rw [htl, Nat.mul_comm])
  rw [h5, htl]

theorem word_byte_low (image : List Pixel) (base : Nat) :
    word_byte (pack_pixels image base 8) 0 =
      (((image.getD (base + 4) default).index &&& 3) <<< 6) |||
      (((image.getD (base + 5) default).index &&& 3) <<< 4) |||
      (((image.getD (base + 6) default).index &&& 3) <<< 2) |||
      ((image.getD (base + 7) default).index &&& 3) := by
  simp only [and_three]
  rw [quad_or _ _ _ _ (Nat.mod_lt _ (by norm_num)) (Nat.mod_lt _ (by norm_num))
    (Nat.mod_lt _ (by norm_num)) (Nat.mod_lt _ (by norm_num))]
  simp only [word_byte, if_true]
  rw [show (0xFF : Nat) = 255 from rfl, and_255, pack_pixels_eight]
  omega

theorem word_byte_high (image : List Pixel) (base : Nat) :
    word_byte (pack_pixels image base 8) 1 =
      (((image.getD (base + 0) default).index &&& 3) <<< 6) |||
      (((image.getD (base + 1) default).index &&& 3) <<< 4) |||
      (((image.getD (base + 2) default).index &&& 3) <<< 2) |||
      ((image.getD (base + 3) default).index &&& 3) := by
  simp only [and_three]
  rw [quad_or _ _ _ _ (Nat.mod_lt _ (by norm_num)) (Nat.mod_lt _ (by norm_num))
    (Nat.mod_lt _ (by norm_num)) (Nat.mod_lt _ (by norm_num))]
  simp only [word_byte, if_neg (show ¬ (1 = 0) by norm_num)]
  rw [show (0xFF : Nat) = 255 from rfl, and_255, Nat.shiftRight_eq_div_pow, pack_pixels_eight,
    show (2 : Nat) ^ 8 = 256 from rfl]
  simp only [Nat.add_zero]
  omega

theorem tile_coords (tw tx ty : Nat) (htx : tx < tw) :
    (ty * tw + tx) % tw = tx ∧ (ty * tw + tx) / tw = ty := by
  constructor
  · rw [Nat.add_comm, Nat.add_mul_mod_self_right, Nat.mod_eq_of_lt htx]
  · rw [Nat.add_comm, Nat.add_mul_div_right _ _ (by omega), Nat.div_eq_of_lt htx, Nat.zero_add]

theorem countP_range_eq_zero (p : Nat → Bool) (n : Nat) (h : ∀ t, t < n → p t = false) :
    (List.range n).countP p = 0 := by
  rw [List.countP_eq_zero]
  intro t ht
  rw [List.mem_range] at ht
  simp [h t ht]

theorem pixel_in_tile (w px py : Nat) (hw : w % 8 = 0) (hpx : px < w) :
    romimg_calc_appimg_offset (tile_index w px py % (w / 8)) (tile_index w px py / (w / 8))
      (py % 8) w rom_attrib + px % 8 = py * w + px := by
  obtain ⟨hm, hd⟩ := tile_coords (w / 8) (px / 8) (py / 8) (by omega)
  unfold tile_index
  rw [hm, hd]
  simp only [romimg_calc_appimg_offset, rom_attrib]
  have h1 : py / 8 * 8 + py % 8 = py := by omega
  rw [h1]
  omega

theorem tile_index_lt (w h px py : Nat) (hw : w % 8 = 0) (hh : h % 8 = 0) (hpx : px < w)
    (hpy : py < h) : tile_index w px py < h / 8 * (w / 8) := by
  unfold tile_index
  have h1 : py / 8 + 1 ≤ h / 8 := by omega
  have h2 := Nat.mul_le_mul_right (w / 8) h1
  rw [Nat.succ_mul] at h2
  omega

theorem tiles_pos (w h : Nat) (hw0 : 0 < w) (hw : w % 8 = 0) (hh0 : 0 < h) (hh : h % 8 = 0) :
    0 < h / 8 * (w / 8) :=
  Nat.mul_pos (by omega) (by omega)

/-- A list of `w * h` entries is determined by its entries at `py * w + px`. -/
theorem ext_grid {α : Type} (w h : Nat) (l1 l2 : List α) (h1 : l1.length = w * h)
    (h2 : l2.length = w * h)
    (hp : ∀ px py, px < w → py < h → l1[py * w + px]? = l2[py * w + px]?) : l1 = l2 := by
  apply List.ext_getElem?
  intro k
  by_cases hk : k < w * h
  · have hw : 0 < w := by
      rcases Nat.eq_zero_or_pos w with h0 | h0
      · rw [h0] at hk; simp at hk
      · exact h0
    have := hp (k % w) (k / w) (Nat.mod_lt _ hw) ((Nat.div_lt_iff_lt_mul hw).2 (by
      rw [Nat.mul_comm]; exact hk))
    rwa [Nat.div_add_mod' k w] at this
  · rw [List.getElem?_eq_none (by omega), List.getElem?_eq_none (by omega)]

theorem decode_pixels_ended (s : decode_state) (n : Nat) (he : s.rom_ended = true) :
    ((List.range n).foldl decode_pixel s).rom_ended = true ∧
    ((List.range n).foldl decode_pixel s).rom_offset = s.rom_offset ∧
    ((List.range n).foldl decode_pixel s).reads = s.reads :=
  foldl_range_invariant decode_pixel
    (fun _ t => t.rom_ended = true ∧ t.rom_offset = s.rom_offset ∧ t.reads = s.reads) n s
    ⟨he, rfl, rfl⟩ (fun _ _ _ ht => ht)

theorem decode_row_ended (data : List Nat) (width x y ty : Nat) (s : decode_state)
    (he : s.rom_ended = true) :
    (decode_row data width x y s ty).rom_ended = true ∧
    (decode_row data width x y s ty).rom_offset = s.rom_offset ∧
    (decode_row data width x y s ty).reads = s.reads := by
  have h := decode_pixels_ended
    { s with p_image_pixel := romimg_calc_appimg_offset x y ty width rom_attrib } PIXELS_PER_WORD he
  simpa [decode_row, he] using h

/-- A tile step entered in the truncated state stays in it and reads nothing. -/
theorem decode_tile_ended (data : List Nat) (size : Int) (width x y : Nat) (s : decode_state)
    (he : s.rom_ended = true) :
    (decode_tile data size width y s x).rom_ended = true ∧
    (decode_tile data size width y s x).rom_offset = s.rom_offset ∧
    (decode_tile data size width y s x).reads = s.reads := by
  have hs1 : (if ((s.rom_offset + tile_size_in_bytes : Nat) : Int) > size
      then { s with rom_ended := true } else s) = s := by
    split
    · cases s; simp_all
    · rfl
  unfold decode_tile
  simp only [hs1]
  exact foldl_range_invariant (decode_row data width x y)
    (fun _ t => t.rom_ended = true ∧ t.rom_offset = s.rom_offset ∧ t.reads = s.reads) _ s
    ⟨he, rfl, rfl⟩ (fun ty t _ ht => by
      obtain ⟨a, b, c⟩ := decode_row_ended data width x y ty t ht.1
      exact ⟨a, b.trans ht.2.1, c.trans ht.2.2⟩)

theorem countP_range_eq_self (p : Nat → Bool) (n : Nat) (h : ∀ t, t < n → p t = true) :
    (List.range n).countP p = n := by
  have := @List.countP_eq_length Nat (List.range n) p
  rw [List.length_range] at this
  rw [this]
  intro t ht
  exact h t (List.mem_range.1 ht)

theorem tile_cell_lt (w h t r c : Nat) (ht : t < h / 8 * (w / 8)) (hr : r < 8) (hc : c < 8) :
    romimg_calc_appimg_offset (t % (w / 8)) (t / (w / 8)) r w rom_attrib + c < w * h := by
  have htw : 0 < w / 8 := by
    rcases Nat.eq_zero_or_pos (w / 8) with h0 | h0
    · rw [h0] at ht; simp at ht
    · exact h0
  have hx : t % (w / 8) < w / 8 := Nat.mod_lt _ htw
  have hy : t / (w / 8) < h / 8 := (Nat.div_lt_iff_lt_mul htw).2 ht
  simp only [romimg_calc_appimg_offset, rom_attrib]
  have h1 : t / (w / 8) * 8 + r + 1 ≤ h := by omega
  have h2 := Nat.mul_le_mul_right w h1
  rw [Nat.succ_mul] at h2
  rw [Nat.mul_comm w h]
  omega

theorem encode_row_flag (image : List Pixel) (width x y ty : Nat) (s : encode_state) :
    ((encode_row image width x y s ty).transparency_flag = 0 ↔ (s.transparency_flag = 0 ∧
      ∀ c, c < 8 → (image.getD ((y * 8 + ty) * width + x * 8 + c) default).transparent = true)) ∧
    (encode_row image width x y s ty).empty_tile_count = s.empty_tile_count := by
  obtain ⟨-, -, h3, -, h5, -, -⟩ := encode_pixels_spec image
    { s with p_image_pixel := (y * 8 + ty) * width + x * 8, output := 0 } 8 (le_refl 8) rfl
  have hs' : encode_row image width x y s ty = encode_write_word ((List.range 8).foldl
      (encode_pixel image) { s with p_image_pixel := (y * 8 + ty) * width + x * 8, output := 0 }) := by
    simp [encode_row, PIXELS_PER_WORD, romimg_calc_appimg_offset, rom_attrib]
  rw [hs']
  exact ⟨by simpa [encode_write_word] using h3, by simpa [encode_write_word] using h5⟩

/-- A tile step counts the tile exactly when its 64 pixels are transparent, whatever
the incoming state. -/
theorem encode_tile_count (image : List Pixel) (width x y : Nat) (s : encode_state)
    (hx : x < width / 8) :
    (encode_tile image width y s x).empty_tile_count =
      s.empty_tile_count + (if tile_transparent image width (y * (width / 8) + x) then 1 else 0) := by
  have key := foldl_range_invariant (encode_row image width x y)
    (fun r t => (t.transparency_flag = 0 ↔ ∀ r', r' < r → ∀ c, c < 8 →
        (image.getD ((y * 8 + r') * width + x * 8 + c) default).transparent = true) ∧
      t.empty_tile_count = s.empty_tile_count) 8 { s with transparency_flag := 0 }
    ⟨by simp, rfl⟩
    (fun r t _ ht => by
      obtain ⟨k3, k4⟩ := ht
      obtain ⟨r3, r4⟩ := encode_row_flag image width x y r t
      refine ⟨?_, r4.trans k4⟩
      rw [r3, k3]
      constructor
      · rintro ⟨ha, hb⟩ r' hr' c hc
        rcases Nat.lt_succ_iff_lt_or_eq.1 hr' with h | h
        · exact ha r' h c hc
        · rw [h]; exact hb c hc
      · intro h
        exact ⟨fun r' hr' c hc => h r' (Nat.lt_succ_of_lt hr') c hc,
          fun c hc => h r (Nat.lt_succ_self r) c hc⟩)
  generalize hfold : (List.range 8).foldl (encode_row image width x y)
    { s with transparency_flag := 0 } = t at key
  have hs' : (encode_tile image width y s x).empty_tile_count =
      romimg_log_transparent_tiles t.transparency_flag t.empty_tile_count := by
    simp only [encode_tile]
    rw [show rom_attrib.TILE_PIXEL_HEIGHT = 8 from rfl, hfold]
  obtain ⟨k3, k4⟩ := key
  rw [hs']
  simp only [romimg_log_transparent_tiles, k4]
  have htr := tile_transparent_iff image width x y hx
  by_cases hf : t.transparency_flag = 0
  · rw [if_pos hf, if_pos (htr.2 (k3.1 hf))]
  · rw [if_neg hf, if_neg (fun hh => hf (k3.2 (htr.1 hh)))]
    rfl

theorem getD_byte (data : List Nat) (hbytes : ∀ b ∈ data, b < 256) (o : Nat) :
    data.getD o 0 < 256 := by
  rw [List.getD_eq_getElem?_getD]
  by_cases ho : o < data.length
  · rw [List.getElem?_eq_getElem ho, Option.getD_some]
    exact hbytes _ (List.getElem_mem ho)
  · rw [List.getElem?_eq_none (by omega)]
    simp

theorem countP_range_ge (n t : Nat) :
    (List.range t).countP (fun i => decide (n ≤ i)) = t - min t n := by
  induction t with
  | zero => simp
  | succ k ih =>
    rw [List.range_succ, List.countP_append, ih]
    by_cases hk : n ≤ k
    · simp [hk]; omega
    · simp [hk]; omega

/-- The pixel at row `r`, column `c` of tile `t`, in pixel coordinates. -/
theorem tile_cell (w h t r c : Nat) (hw : w % 8 = 0) (ht : t < h / 8 * (w / 8)) (hr : r < 8)
    (hc : c < 8) :
    t % (w / 8) * 8 + c < w ∧ t / (w / 8) * 8 + r < h ∧
    tile_index w (t % (w / 8) * 8 + c) (t / (w / 8) * 8 + r) = t ∧
    romimg_calc_appimg_offset (t % (w / 8)) (t / (w / 8)) r w rom_attrib + c =
      (t / (w / 8) * 8 + r) * w + (t % (w / 8) * 8 + c) := by
  have htw : 0 < w / 8 := by
    rcases Nat.eq_zero_or_pos (w / 8) with h0 | h0
    · rw [h0] at ht; simp at ht
    · exact h0
  have hx : t % (w / 8) < w / 8 := Nat.mod_lt _ htw
  have hy : t / (w / 8) < h / 8 := (Nat.div_lt_iff_lt_mul htw).2 ht
  refine ⟨by omega, by omega, ?_, ?_⟩
  · unfold tile_index
    have e1 : (t / (w / 8) * 8 + r) / 8 = t / (w / 8) := by omega
    have e2 : (t % (w / 8) * 8 + c) / 8 = t % (w / 8) := by omega
    rw [e1, e2]
    exact Nat.div_add_mod' t (w / 8)
  · simp only [romimg_calc_appimg_offset, rom_attrib]
    omega

theorem decoded_cell (pixdata0 : Nat) (data : List Nat) (w h : Nat) (target : List Pixel)
    (hw : w % 8 = 0) (hh : h % 8 = 0) (htl : target.length = w * h) (t r c : Nat)
    (ht : t < h / 8 * (w / 8)) (hr : r < 8) (hc : c < 8) :
    (bin_decode_loops pixdata0 data data.length target w h).image.getD
        (romimg_calc_appimg_offset (t % (w / 8)) (t / (w / 8)) r w rom_attrib + c) default =
      if t < data.length / 16 then
        { index := unpack_pixel (packed_word data (16 * t + 2 * r)) c, transparent := false }
      else
        { index := if t = 0 ∧ r = 0 then unpack_pixel (pixdata0 % 65536) c else 0
          transparent := true } := by
  obtain ⟨h1, h2, h3, h4⟩ := tile_cell w h t r c hw ht hr hc
  rw [h4, List.getD_eq_getElem?_getD,
    bin_decode_loops_pixel pixdata0 data data.length w h target hw hh
      (by rw [htl, Nat.mul_comm]) _ _ h1 h2, Option.getD_some]
  have e1 : (t / (w / 8) * 8 + r) % 8 = r := by omega
  have e2 : (t % (w / 8) * 8 + c) % 8 = c := by omega
  simp only [decoded_pixel, h3, e1, e2]

/-- A tile of a decoded image is fully transparent exactly when its data is missing. -/
theorem decoded_tile_transparent (pixdata0 : Nat) (data : List Nat) (w h : Nat)
    (target : List Pixel) (hw : w % 8 = 0) (hh : h % 8 = 0) (htl : target.length = w * h)
    (t : Nat) (ht : t < h / 8 * (w / 8)) :
    tile_transparent (bin_decode_loops pixdata0 data data.length target w h).image w t = true ↔
      data.length / 16 ≤ t := by
  simp only [tile_transparent, List.all_eq_true, List.mem_range]
  constructor
  · intro hall
    have h0 := hall 0 (by norm_num) 0 (by norm_num)
    rw [decoded_cell pixdata0 data w h target hw hh htl t 0 0 ht (by norm_num) (by norm_num)] at h0
    by_contra hlt
    rw [if_pos (by omega)] at h0
    simp at h0
  · intro hle r hr c hc
    rw [decoded_cell pixdata0 data w h target hw hh htl t r c ht hr hc, if_neg (by omega)]

/-- The `b` loop of the decoder leaves the read offset, the flag and the read trace alone. -/
theorem decode_pixels_ctrl (s : decode_state) (n : Nat) :
    ((List.range n).foldl decode_pixel s).rom_ended = s.rom_ended ∧
    ((List.range n).foldl decode_pixel s).rom_offset = s.rom_offset ∧
    ((List.range n).foldl decode_pixel s).reads = s.reads :=
  foldl_range_invariant decode_pixel
    (fun _ t => t.rom_ended = s.rom_ended ∧ t.rom_offset = s.rom_offset ∧ t.reads = s.reads) n s
    ⟨rfl, rfl, rfl⟩ (fun _ _ _ ht => ht)

/-- Effect of one row of the decoder on the read offset, the flag and the read trace. -/
theorem decode_row_ctrl (data : List Nat) (width x y ty : Nat) (s : decode_state) :
    (decode_row data width x y s ty).rom_ended = s.rom_ended ∧
    (decode_row data width x y s ty).rom_offset =
      (if s.rom_ended then s.rom_offset else s.rom_offset + 2) ∧
    (decode_row data width x y s ty).reads =
      (if s.rom_ended then s.reads else s.reads ++ [s.rom_offset, s.rom_offset + 1]) := by
  cases he : s.rom_ended with
  | true =>
    have h := decode_pixels_ctrl
      { s with p_image_pixel := romimg_calc_appimg_offset x y ty width rom_attrib } PIXELS_PER_WORD
    simpa [decode_row, he] using h
  | false =>
    have h := decode_pixels_ctrl (decode_read_word data
      { s with p_image_pixel := romimg_calc_appimg_offset x y ty width rom_attrib }) PIXELS_PER_WORD
    simpa [decode_row, he, decode_read_word] using h

/-- Effect of one tile of the decoder on the read offset, the flag and the read trace. -/
theorem decode_tile_ctrl (data : List Nat) (n width x y : Nat) (s : decode_state)
    (hreads : s.reads = List.range s.rom_offset) :
    let e := s.rom_ended || decide (n < s.rom_offset + 16)
    (decode_tile data (n : Int) width y s x).rom_ended = e ∧
    (decode_tile data (n : Int) width y s x).rom_offset =
      (if e then s.rom_offset else s.rom_offset + 16) ∧
    (decode_tile data (n : Int) width y s x).reads =
      List.range (decode_tile data (n : Int) width y s x).rom_offset := by
  intro e
  have hs1 : (if ((s.rom_offset + tile_size_in_bytes : Nat) : Int) > (n : Int)
      then { s with rom_ended := true } else s) = { s with rom_ended := e } := by
    have h16 : tile_size_in_bytes = 16 := rfl
    rw [h16]
    by_cases hc : n < s.rom_offset + 16
    · have : ((s.rom_offset + 16 : Nat) : Int) > (n : Int) := by exact_mod_cast hc
      rw [if_pos this]
      simp [e, hc]
    · have : ¬ ((s.rom_offset + 16 : Nat) : Int) > (n : Int) := by
        intro h; exact hc (by exact_mod_cast h)
      rw [if_neg this]
      simp [e, hc]
  have key := foldl_range_invariant (decode_row data width x y)
    (fun r t => t.rom_ended = e ∧
      t.rom_offset = (if e then s.rom_offset else s.rom_offset + 2 * r) ∧
      t.reads = List.range t.rom_offset) 8 { s with rom_ended := e }
    ⟨rfl, by cases e <;> simp, by cases e <;> simpa using hreads⟩
    (fun r t _ ht => by
      obtain ⟨k1, k2, k3⟩ := ht
      obtain ⟨r1, r2, r3⟩ := decode_row_ctrl data width x y r t
      refine ⟨r1.trans k1, ?_, ?_⟩
      · rw [r2, k1, k2]; cases e <;> simp; omega
      · rw [r2, r3, k1, k3]
        cases e
        · simp [List.range_succ]
        · simp)
  have hs' : decode_tile data (n : Int) width y s x =
      (List.range 8).foldl (decode_row data width x y) { s with rom_ended := e } := by
    simp only [decode_tile, hs1]
    rfl
  rw [hs']
  obtain ⟨k1, k2, k3⟩ := key
  exact ⟨k1, by rw [k2], k3⟩

/-- One tile step takes the control invariant from `t` tiles to `t + 1`. -/
theorem decode_ctrl_step (data : List Nat) (n width x y t : Nat) (s : decode_state)
    (h : decode_ctrl_inv n t s) :
    decode_ctrl_inv n (t + 1) (decode_tile data (n : Int) width y s x) := by
  obtain ⟨h1, h2, h3⟩ := h
  obtain ⟨r1, r2, r3⟩ := decode_tile_ctrl data n width x y s h3
  have he : (s.rom_ended || decide (n < s.rom_offset + 16)) = decide (n / 16 < t + 1) := by
    rw [h1, h2]
    by_cases hc : t < n / 16
    · have e1 : ¬ (n / 16 < t) := by omega
      have e2 : ¬ (n < 16 * min t (n / 16) + 16) := by omega
      have e3 : ¬ (n / 16 < t + 1) := by omega
      simp [e1, e2, e3]
    · have e2 : n < 16 * min t (n / 16) + 16 := by omega
      have e3 : n / 16 < t + 1 := by omega
      simp [e2, e3]
  rw [he] at r1 r2
  refine ⟨?_, r1, r3⟩
  rw [r2, h1]
  by_cases hc : t < n / 16
  · have e3 : ¬ (n / 16 < t + 1) := by omega
    simp only [e3, decide_False, Bool.false_eq_true, if_false]; omega
  · have e3 : n / 16 < t + 1 := by omega
    simp only [e3, decide_True, if_true]; omega

/-- The control invariant holds after the loop nest, for any target and any dimensions. -/
theorem bin_decode_loops_ctrl (pixdata0 : Nat) (data : List Nat) (n width height : Nat)
    (image : List Pixel) :
    decode_ctrl_inv n (height / 8 * (width / 8))
      (bin_decode_loops pixdata0 data (n : Int) image width height) := by
  refine foldl_range_invariant (decode_tile_row data (n : Int) width)
    (fun y t => decode_ctrl_inv n (y * (width / 8)) t) (height / 8) _ ?_ ?_
  · exact ⟨by simp, by simp, by simp⟩
  · intro y t _ ht
    have key := foldl_range_invariant (decode_tile data (n : Int) width y)
      (fun x u => decode_ctrl_inv n (y * (width / 8) + x) u) (width / 8) t ht
      (fun x u _ hu => decode_ctrl_step data n width x y _ u hu)
    rw [Nat.succ_mul]
    exact key

/-- The number of transparent pixels of a decoded image, counted over pixel positions. -/
theorem decoded_transparent_count (pixdata0 : Nat) (data : List Nat) (w h : Nat)
    (target : List Pixel) (hw : w % 8 = 0) (hh : h % 8 = 0) (htl : target.length = w * h) :
    transparent_count (bin_decode_loops pixdata0 data data.length target w h).image =
      (List.range (w * h)).countP
        (fun k => decide (data.length / 16 ≤ tile_index w (k % w) (k / w))) := by
  have hlo := decoded_length pixdata0 data data.length w h target hw htl
  have hmap : (bin_decode_loops pixdata0 data data.length target w h).image.map
      (fun p => p.transparent) =
      (List.range (w * h)).map
        (fun k => decide (data.length / 16 ≤ tile_index w (k % w) (k / w))) := by
    apply ext_grid w h _ _ (by rw [List.length_map, hlo])
      (by rw [List.length_map, List.length_range])
    intro px py hpx hpy
    have hk : py * w + px < w * h := by
      have := Nat.mul_le_mul_right w (Nat.succ_le_of_lt hpy)
      rw [Nat.succ_mul] at this
      rw [Nat.mul_comm w h]
      omega
    have e1 : (py * w + px) % w = px := by
      rw [Nat.add_comm, Nat.add_mul_mod_self_right, Nat.mod_eq_of_lt hpx]
    have e2 : (py * w + px) / w = py := by
      rw [Nat.add_comm, Nat.add_mul_div_right _ _ (by omega), Nat.div_eq_of_lt hpx, Nat.zero_add]
    rw [List.getElem?_map, List.getElem?_map,
      bin_decode_loops_pixel pixdata0 data data.length w h target hw hh
        (by rw [htl, Nat.mul_comm]) px py hpx hpy,
      List.getElem?_range hk, Option.map_some', Option.map_some', e1, e2]
    refine congrArg some ?_
    unfold decoded_pixel
    by_cases ht : tile_index w px py < data.length / 16
    · rw [if_pos ht]
      have : ¬ data.length / 16 ≤ tile_index w px py := by omega
      simp [this]
    · rw [if_neg ht]
      have : data.length / 16 ≤ tile_index w px py := by omega
      simp [this]
  unfold transparent_count
  have c1 := List.countP_map (fun b : Bool => b) (fun p : Pixel => p.transparent)
    (bin_decode_loops pixdata0 data data.length target w h).image
  have c2 := List.countP_map (fun b : Bool => b)
    (fun k => decide (data.length / 16 ≤ tile_index w (k % w) (k / w))) (List.range (w * h))
  rw [hmap] at c1
  rw [c1] at c2
  exact c2

/-- The leftmost pixel of the word `v * 16384` is `v`. -/
theorem unpack_top (v : Nat) (hv : v < 4) : unpack_pixel (v * 16384 % 65536) 0 = v := by
  rw [unpack_pixel_eq _ _ (by norm_num)]
  norm_num
  omega

/-- Reading a masked buffer is masking the pixel read. -/
theorem getD_map_mask (image : List Pixel) (k : Nat) :
    (image.map mask_index).getD k default = mask_index (image.getD k default) := by
  rw [List.getD_eq_getElem?_getD, List.getD_eq_getElem?_getD, List.getElem?_map]
  cases image[k]? with
  | none => rfl
  | some p => rfl

/-- The body of the `b` loop of the encoder does not see the masking of indices. -/
theorem encode_pixel_mask (image : List Pixel) :
    encode_pixel (image.map mask_index) = encode_pixel image := by
  funext s b
  simp only [encode_pixel, getD_map_mask]
  have h1 : (mask_index (image.getD s.p_image_pixel default)).index &&& 0x03 =
      (image.getD s.p_image_pixel default).index &&& 0x03 := by
    show (image.getD s.p_image_pixel default).index % 4 &&& 3 = _
    rw [and_three, and_three, Nat.mod_mod]
  have h2 : romimg_log_transparent_pixel (mask_index (image.getD s.p_image_pixel default)) =
      romimg_log_transparent_pixel (image.getD s.p_image_pixel default) := rfl
  rw [h1, h2]

/-- The loop nest of the encoder does not see the masking of indices. -/
theorem bin_encode_loops_mask (image : List Pixel) (data : List Nat) (w h : Nat) :
    bin_encode_loops (image.map mask_index) data w h = bin_encode_loops image data w h := by
  have hrow : encode_row (image.map mask_index) = encode_row image := by
    funext width x y s ty
    simp only [encode_row, encode_pixel_mask]
  have htile : encode_tile (image.map mask_index) = encode_tile image := by
    funext width y s x
    simp only [encode_tile, hrow]
  have htr : encode_tile_row (image.map mask_index) = encode_tile_row image := by
    funext width s y
    simp only [encode_tile_row, htile]
  simp only [bin_encode_loops, htr]

/-- The encoder does not see the masking of indices. -/
theorem bin_encode_image_mask (p_rom_gfx : rom_gfx_data) (image : List Pixel) (w h : Nat) :
    bin_encode_image p_rom_gfx ⟨some (image.map mask_index), w, h⟩ =
      bin_encode_image p_rom_gfx ⟨some image, w, h⟩ := by
  obtain ⟨d, size⟩ := p_rom_gfx
  cases d with
  | none => rfl
  | some data => simp only [bin_encode_image, bin_encode_loops_mask]

/-- Decoding the encoding of a buffer with no fully transparent tile stores
each palette index modulo 4. -/
theorem roundtrip_mod_four (w h : Nat) (hw0 : 0 < w) (hw : w % 8 = 0) (hh0 : 0 < h)
    (hh : h % 8 = 0) (image : List Pixel) (hlen : image.length = w * h)
    (hnt : ∀ t, t < (w / 8) * (h / 8) → tile_transparent image w t = false)
    (buf : List Nat) (hbuf : buf.length = (w / 8) * (h / 8) * 16)
    (target : List Pixel) (htl : target.length = w * h) (pixdata0 : Nat) :
    ∃ packed out,
      bin_encode_image ⟨some buf, ((w / 8) * (h / 8) * 16 : Nat)⟩ ⟨some image, w, h⟩ = (0, packed) ∧
      bin_decode_image pixdata0 packed ⟨some target, w, h⟩ = (0, ⟨some out, w, h⟩) ∧
      out.map Pixel.index = image.map (fun p => p.index % 4) := by
  have hT := tiles_pos w h hw0 hw hh0 hh
  rw [Nat.mul_comm (w / 8) (h / 8)] at hnt hbuf ⊢
  have hsz : (((h / 8) * (w / 8) * 16 : Nat) : Int) ≠ 0 := by
    have : (h / 8) * (w / 8) * 16 ≠ 0 := by omega
    exact_mod_cast this
  obtain ⟨-, -, e3, e4, e5⟩ := bin_encode_loops_inv image buf w h (by omega)
  rw [countP_range_eq_zero _ _ hnt] at e3
  have henc := bin_encode_image_eq buf _ image w h hsz hw0 hh0
  rw [e3] at henc
  simp only [Nat.zero_mul, Nat.cast_zero, sub_zero] at henc
  generalize hs : bin_encode_loops image buf w h = s at e4 e5 henc
  refine ⟨_, _, henc, bin_decode_image_eq pixdata0 _ _ target w h hw0 hh0, ?_⟩
  have hlo := decoded_length pixdata0 s.data (h / 8 * (w / 8) * 16) w h target hw htl
  apply ext_grid w h _ _ (by rw [List.length_map, hlo]) (by rw [List.length_map, hlen])
  intro px py hpx hpy
  have hti := tile_index_lt w h px py hw hh hpx hpy
  rw [List.getElem?_map, List.getElem?_map,
    bin_decode_loops_pixel pixdata0 s.data _ w h target hw hh (by rw [htl, Nat.mul_comm])
      px py hpx hpy]
  have hlt : tile_index w px py < h / 8 * (w / 8) * 16 / 16 := by omega
  simp only [decoded_pixel, if_pos hlt, Option.map_some']
  have hbase := pixel_in_tile w px py hw hpx
  generalize tile_index w px py = t at hti hlt hbase
  have hk : py * w + px < image.length := by
    rw [hlen, Nat.mul_comm w h]
    have := Nat.mul_le_mul_right w (Nat.succ_le_of_lt hpy)
    rw [Nat.succ_mul] at this
    omega
  rw [List.getElem?_eq_getElem hk, Option.map_some']
  refine congrArg some ?_
  have hb0 : s.data.getD (16 * t + 2 * (py % 8)) 0 = encoded_byte image w (16 * t + 2 * (py % 8)) := by
    rw [List.getD_eq_getElem?_getD, e5, if_pos (by omega)]; rfl
  have hb1 : s.data.getD (16 * t + 2 * (py % 8) + 1) 0 =
      encoded_byte image w (16 * t + 2 * (py % 8) + 1) := by
    rw [List.getD_eq_getElem?_getD, e5, if_pos (by omega)]; rfl
  have e1 : (16 * t + 2 * (py % 8)) / 16 = t := by omega
  have e2 : (16 * t + 2 * (py % 8)) % 16 / 2 = py % 8 := by omega
  have e3 : (16 * t + 2 * (py % 8)) % 2 = 0 := by omega
  have f1 : (16 * t + 2 * (py % 8) + 1) / 16 = t := by omega
  have f2 : (16 * t + 2 * (py % 8) + 1) % 16 / 2 = py % 8 := by omega
  have f3 : (16 * t + 2 * (py % 8) + 1) % 2 = 1 := by omega
  unfold packed_word
  rw [hb0, hb1]
  unfold encoded_byte
  rw [e1, e2, e3, f1, f2, f3]
  have hlt16 := pack_pixels_lt image
    (romimg_calc_appimg_offset (t % (w / 8)) (t / (w / 8)) (py % 8) w rom_attrib) 8
  rw [word_bytes_join _ (by norm_num at hlt16; omega), unpack_pack _ _ _ (by omega), hbase,
    List.getD_eq_getElem?_getD, List.getElem?_eq_getElem hk, Option.getD_some]

/-- Claim C1 (encode-then-decode round trip).  For every width and height that are
positive multiples of 8, every pixel buffer of `w * h` pixels whose palette
indices are all at most 3 and none of whose tiles is fully transparent, and every
packed buffer of the full grid size, `bin_encode_image` succeeds, and
`bin_decode_image` run on the packed descriptor it leaves (its bytes and its
reported size) with the same width and height succeeds and stores at every pixel
the palette index of the input. -/
theorem encode_decode_roundtrip (w h : Nat) (hw0 : 0 < w) (hw : w % 8 = 0) (hh0 : 0 < h)
    (hh : h % 8 = 0) (image : List Pixel) (hlen : image.length = w * h)
    (hidx : ∀ p ∈ image, p.index ≤ 3)
    (hnt : ∀ t, t < (w / 8) * (h / 8) → tile_transparent image w t = false)
    (buf : List Nat) (hbuf : buf.length = (w / 8) * (h / 8) * 16)
    (target : List Pixel) (htl : target.length = w * h) (pixdata0 : Nat) :
    ∃ packed out,
      bin_encode_image ⟨some buf, ((w / 8) * (h / 8) * 16 : Nat)⟩ ⟨some image, w, h⟩ = (0, packed) ∧
      bin_decode_image pixdata0 packed ⟨some target, w, h⟩ = (0, ⟨some out, w, h⟩) ∧
      out.map Pixel.index = image.map Pixel.index := by
  have hT := tiles_pos w h hw0 hw hh0 hh
  rw [Nat.mul_comm (w / 8) (h / 8)] at hnt hbuf ⊢
  have hsz : (((h / 8) * (w / 8) * 16 : Nat) : Int) ≠ 0 := by
    have : (h / 8) * (w / 8) * 16 ≠ 0 := by omega
    exact_mod_cast this
  obtain ⟨-, -, e3, e4, e5⟩ := bin_encode_loops_inv image buf w h (by omega)
  rw [countP_range_eq_zero _ _ hnt] at e3
  have henc := bin_encode_image_eq buf _ image w h hsz hw0 hh0
  rw [e3] at henc
  simp only [Nat.zero_mul, Nat.cast_zero, sub_zero] at henc
  generalize hs : bin_encode_loops image buf w h = s at e4 e5 henc
  refine ⟨_, _, henc, bin_decode_image_eq pixdata0 _ _ target w h hw0 hh0, ?_⟩
  have hlo := decoded_length pixdata0 s.data (h / 8 * (w / 8) * 16) w h target hw htl
  apply ext_grid w h _ _ (by rw [List.length_map, hlo]) (by rw [List.length_map, hlen])
  intro px py hpx hpy
  have hti := tile_index_lt w h px py hw hh hpx hpy
  rw [List.getElem?_map, List.getElem?_map,
    bin_decode_loops_pixel pixdata0 s.data _ w h target hw hh (by rw [htl, Nat.mul_comm])
      px py hpx hpy]
  have hlt : tile_index w px py < h / 8 * (w / 8) * 16 / 16 := by omega
  simp only [decoded_pixel, if_pos hlt, Option.map_some']
  have hbase := pixel_in_tile w px py hw hpx
  generalize tile_index w px py = t at hti hlt hbase
  have hk : py * w + px < image.length := by
    rw [hlen, Nat.mul_comm w h]
    have := Nat.mul_le_mul_right w (Nat.succ_le_of_lt hpy)
    rw [Nat.succ_mul] at this
    omega
  rw [List.getElem?_eq_getElem hk, Option.map_some']
  refine congrArg some ?_
  have hb0 : s.data.getD (16 * t + 2 * (py % 8)) 0 = encoded_byte image w (16 * t + 2 * (py % 8)) := by
    rw [List.getD_eq_getElem?_getD, e5, if_pos (by omega)]; rfl
  have hb1 : s.data.getD (16 * t + 2 * (py % 8) + 1) 0 =
      encoded_byte image w (16 * t + 2 * (py % 8) + 1) := by
    rw [List.getD_eq_getElem?_getD, e5, if_pos (by omega)]; rfl
  have e1 : (16 * t + 2 * (py % 8)) / 16 = t := by omega
  have e2 : (16 * t + 2 * (py % 8)) % 16 / 2 = py % 8 := by omega
  have e3 : (16 * t + 2 * (py % 8)) % 2 = 0 := by omega
  have f1 : (16 * t + 2 * (py % 8) + 1) / 16 = t := by omega
  have f2 : (16 * t + 2 * (py % 8) + 1) % 16 / 2 = py % 8 := by omega
  have f3 : (16 * t + 2 * (py % 8) + 1) % 2 = 1 := by omega
  unfold packed_word
  rw [hb0, hb1]
  unfold encoded_byte
  rw [e1, e2, e3, f1, f2, f3]
  have hlt16 := pack_pixels_lt image
    (romimg_calc_appimg_offset (t % (w / 8)) (t / (w / 8)) (py % 8) w rom_attrib) 8
  rw [word_bytes_join _ (by norm_num at hlt16; omega), unpack_pack _ _ _ (by omega), hbase,
    List.getD_eq_getElem?_getD, List.getElem?_eq_getElem hk, Option.getD_some]
  have := hidx _ (List.getElem_mem hk)
  omega

/-- Witness for `encode_decode_roundtrip` on an 8×8 image. -/
theorem encode_decode_roundtrip_witness :
    ∃ packed out,
      bin_encode_image ⟨some (List.replicate 16 0), ((8 / 8) * (8 / 8) * 16 : Nat)⟩
        ⟨some sample_image, 8, 8⟩ = (0, packed) ∧
      bin_decode_image 0 packed ⟨some clear_image, 8, 8⟩ = (0, ⟨some out, 8, 8⟩) ∧
      out.map Pixel.index = sample_image.map Pixel.index :=
  encode_decode_roundtrip 8 8 (by decide) (by decide) (by decide) (by decide) sample_image
    (by decide) (by decide) (by decide) (List.replicate 16 0) (by decide) clear_image (by decide) 0

/-- Claim C2 (decoder pixel formula).  For tile-aligned `w`, `h` and a packed buffer
of at least `(w/8)*(h/8)*16` bytes, the pixel `bin_decode_image` stores at
`(px, py)` has palette index `(word >>> (14 - 2*(px % 8))) &&& 3` and is not
transparent, where `word = byte[o] ||| (byte[o+1] <<< 8)` and
`o = 16*((py/8)*(w/8) + px/8) + 2*(py % 8)`. -/
theorem decode_pixel_formula (w h : Nat) (hw : w % 8 = 0) (hh : h % 8 = 0) (data : List Nat)
    (hdata : (w / 8) * (h / 8) * 16 ≤ data.length) (target : List Pixel)
    (htl : target.length = w * h) (pixdata0 : Nat) (px py : Nat) (hpx : px < w) (hpy : py < h) :
    ∃ out, bin_decode_image pixdata0 ⟨some data, data.length⟩ ⟨some target, w, h⟩ =
        (0, ⟨some out, w, h⟩) ∧
      let o := 16 * ((py / 8) * (w / 8) + px / 8) + 2 * (py % 8)
      let word := data.getD o 0 ||| (data.getD (o + 1) 0 <<< 8)
      out[py * w + px]? = some ⟨(word >>> (14 - 2 * (px % 8))) &&& 3, false⟩ := by
  refine ⟨_, bin_decode_image_eq pixdata0 data _ target w h (by omega) (by omega), ?_⟩
  intro o word
  rw [bin_decode_loops_pixel pixdata0 data data.length w h target hw hh
    (by rw [htl, Nat.mul_comm]) px py hpx hpy]
  have ht : tile_index w px py < data.length / 16 := by
    unfold tile_index
    have h1 : py / 8 + 1 ≤ h / 8 := by omega
    have h2 := Nat.mul_le_mul_right (w / 8) h1
    rw [Nat.succ_mul] at h2
    rw [Nat.mul_comm (w / 8) (h / 8)] at hdata
    omega
  simp only [decoded_pixel, if_pos ht]
  rfl

/-- Witness for `decode_pixel_formula`: pixel `(5, 1)` of an 8×8 target. -/
theorem decode_pixel_formula_witness :
    ∃ out, bin_decode_image 0 ⟨some sample_packed, sample_packed.length⟩ ⟨some clear_image, 8, 8⟩ =
        (0, ⟨some out, 8, 8⟩) ∧
      let o := 16 * ((1 / 8) * (8 / 8) + 5 / 8) + 2 * (1 % 8)
      let word := sample_packed.getD o 0 ||| (sample_packed.getD (o + 1) 0 <<< 8)
      out[1 * 8 + 5]? = some ⟨(word >>> (14 - 2 * (5 % 8))) &&& 3, false⟩ :=
  decode_pixel_formula 8 8 (by decide) (by decide) sample_packed (by decide) clear_image
    (by decide) 0 5 1 (by decide) (by decide)

/-- Claim C3 (encoder byte formula).  For every tile `t = ty*(w/8) + tx` of the grid
and every row `r < 8` with row pixels `p 0 .. p 7`, `bin_encode_image` stores at
packed offset `16*t + 2*r` the byte built from pixels 4-7 and at offset
`16*t + 2*r + 1` the byte built from pixels 0-3, each as
`(a &&& 3) <<< 6 ||| (b &&& 3) <<< 4 ||| (c &&& 3) <<< 2 ||| (d &&& 3)`. -/
theorem encode_byte_formula (w h : Nat) (image : List Pixel) (buf : List Nat) (size : Int)
    (hsize : size ≠ 0) (hbuf : (w / 8) * (h / 8) * 16 ≤ buf.length)
    (tx ty r : Nat) (htx : tx < w / 8) (hty : ty < h / 8) (hr : r < 8) :
    ∃ out sz, bin_encode_image ⟨some buf, size⟩ ⟨some image, w, h⟩ = (0, ⟨some out, sz⟩) ∧
      let t := ty * (w / 8) + tx
      let p := fun i => (image.getD ((ty * 8 + r) * w + tx * 8 + i) default).index
      out[16 * t + 2 * r]? =
        some (((p 4 &&& 3) <<< 6) ||| ((p 5 &&& 3) <<< 4) ||| ((p 6 &&& 3) <<< 2) ||| (p 7 &&& 3)) ∧
      out[16 * t + 2 * r + 1]? =
        some (((p 0 &&& 3) <<< 6) ||| ((p 1 &&& 3) <<< 4) ||| ((p 2 &&& 3) <<< 2) ||| (p 3 &&& 3)) := by
  refine ⟨_, _, bin_encode_image_eq buf size image w h hsize (by omega) (by omega), ?_⟩
  intro t p
  obtain ⟨-, -, -, -, h5⟩ := bin_encode_loops_inv image buf w h
    (by rw [Nat.mul_comm (w / 8) (h / 8)] at hbuf; omega)
  obtain ⟨hm, hd⟩ := tile_coords (w / 8) tx ty htx
  have hT : t + 1 ≤ h / 8 * (w / 8) := by
    have h2 := Nat.mul_le_mul_right (w / 8) (Nat.succ_le_of_lt hty)
    rw [Nat.succ_mul] at h2
    show ty * (w / 8) + tx + 1 ≤ _
    omega
  constructor
  · rw [h5, if_pos (by omega)]
    have e1 : (16 * t + 2 * r) / 16 = t := by omega
    have e2 : (16 * t + 2 * r) % 16 / 2 = r := by omega
    have e3 : (16 * t + 2 * r) % 2 = 0 := by omega
    simp only [encoded_byte, e1, e2, e3, hm, hd, t, romimg_calc_appimg_offset, rom_attrib]
    rw [word_byte_low]
  · rw [h5, if_pos (by omega)]
    have e1 : (16 * t + 2 * r + 1) / 16 = t := by omega
    have e2 : (16 * t + 2 * r + 1) % 16 / 2 = r := by omega
    have e3 : (16 * t + 2 * r + 1) % 2 = 1 := by omega
    simp only [encoded_byte, e1, e2, e3, hm, hd, t, romimg_calc_appimg_offset, rom_attrib]
    rw [word_byte_high]

/-- Witness for `encode_byte_formula`: row 3 of the only tile of an 8×8 image. -/
theorem encode_byte_formula_witness :
    ∃ out sz, bin_encode_image ⟨some (List.replicate 16 0), 16⟩ ⟨some sample_image, 8, 8⟩ =
        (0, ⟨some out, sz⟩) ∧
      let t := 0 * (8 / 8) + 0
      let p := fun i => (sample_image.getD ((0 * 8 + 3) * 8 + 0 * 8 + i) default).index
      out[16 * t + 2 * 3]? =
        some (((p 4 &&& 3) <<< 6) ||| ((p 5 &&& 3) <<< 4) ||| ((p 6 &&& 3) <<< 2) ||| (p 7 &&& 3)) ∧
      out[16 * t + 2 * 3 + 1]? =
        some (((p 0 &&& 3) <<< 6) ||| ((p 1 &&& 3) <<< 4) ||| ((p 2 &&& 3) <<< 2) ||| (p 3 &&& 3)) :=
  encode_byte_formula 8 8 sample_image (List.replicate 16 0) 16 (by decide) (by decide) 0 0 3
    (by decide) (by decide) (by decide)

/-- Claim C4, refuted as stated.  The packed row `[0x00, 0xFC]` is the word `0xFC00`,
and the unpack loop of the decoder does not turn it into the pixels
`3,0,0,0,0,0,0,0`. -/
theorem bit_order_fixture_refuted :
    packed_word [0x00, 0xFC] 0 = 0xFC00 ∧
    (decode_row [0x00, 0xFC] 8 0 0 (decode_init 0 (List.replicate 8 default)) 0).image.map
      Pixel.index ≠ [3, 0, 0, 0, 0, 0, 0, 0] := by
  decide

/-- Claim C4, amended (bit-order fixture).  Decoding one row whose two packed bytes
are `[0x00, 0xFC]` (word `0xFC00`) yields exactly the row pixels
`3,3,3,0,0,0,0,0`: the six set bits are the three leftmost pixels. -/
theorem bit_order_fixture :
    packed_word [0x00, 0xFC] 0 = 0xFC00 ∧
    (decode_row [0x00, 0xFC] 8 0 0 (decode_init 0 (List.replicate 8 default)) 0).image.map
      Pixel.index = [3, 3, 3, 0, 0, 0, 0, 0] := by
  decide

/-- Claim C5, refuted as stated.  With the 18-byte buffer `packed18` and a 16×8
target, two unread bytes (16 and 17) remain for row 0 of the second tile, yet
pixel `(8, 0)` is not decoded from them. -/
theorem row_granular_refuted :
    ¬ row_granular 0 packed18 (List.replicate 128 default) 16 8 := by
  intro hc
  have h1 := hc 8 0 (by decide) (by decide) (by decide)
  revert h1
  decide

/-- What the decoder stores in row 0 of the second tile for the 18-byte buffer
`packed18` and a 16×8 target: eight transparent pixels of index 0. -/
theorem row_granular_refuted_detail :
    (bin_decode_image 0 ⟨some packed18, 18⟩ ⟨some (List.replicate 128 default), 16, 8⟩).2.p_data.map
        (fun out => (List.range 8).map fun c => out.getD (0 * 16 + 8 + c) default) =
      some (List.replicate 8 ⟨0, true⟩) := by
  decide

/-- Claim C5, amended (tile-granular truncation).  `bin_decode_image` tests for
remaining data once per tile: a pixel of tile `t` (row-major index) is decoded
from the packed data when at least 16 unread bytes remain at the start of its
tile (`16*t + 16 ≤ n`), and is written transparent when fewer than 16 remain. -/
theorem tile_granular_truncation (w h : Nat) (hw : w % 8 = 0) (hh : h % 8 = 0) (data : List Nat)
    (target : List Pixel) (htl : target.length = w * h) (pixdata0 : Nat) (px py : Nat)
    (hpx : px < w) (hpy : py < h) :
    ∃ out, bin_decode_image pixdata0 ⟨some data, data.length⟩ ⟨some target, w, h⟩ =
        (0, ⟨some out, w, h⟩) ∧
      (16 * tile_index w px py + 16 ≤ data.length →
        out[py * w + px]? = some ⟨unpack_pixel
          (packed_word data (16 * tile_index w px py + 2 * (py % 8))) (px % 8), false⟩) ∧
      (data.length < 16 * tile_index w px py + 16 →
        (out[py * w + px]?).map Pixel.transparent = some true) := by
  refine ⟨_, bin_decode_image_eq pixdata0 data _ target w h (by omega) (by omega), ?_, ?_⟩
  · intro hc
    rw [bin_decode_loops_pixel pixdata0 data data.length w h target hw hh
      (by rw [htl, Nat.mul_comm]) px py hpx hpy]
    have ht : tile_index w px py < data.length / 16 := by omega
    simp only [decoded_pixel, if_pos ht]
  · intro hc
    rw [bin_decode_loops_pixel pixdata0 data data.length w h target hw hh
      (by rw [htl, Nat.mul_comm]) px py hpx hpy]
    have ht : ¬ tile_index w px py < data.length / 16 := by omega
    simp only [decoded_pixel, if_neg ht, Option.map_some']

/-- Witness for `tile_granular_truncation`: pixel `(8, 0)` of a 16×8 target decoded
from 18 bytes. -/
theorem tile_granular_truncation_witness :
    ∃ out, bin_decode_image 0 ⟨some packed18, packed18.length⟩
        ⟨some (List.replicate 128 default), 16, 8⟩ = (0, ⟨some out, 16, 8⟩) ∧
      (16 * tile_index 16 8 0 + 16 ≤ packed18.length →
        out[0 * 16 + 8]? = some ⟨unpack_pixel
          (packed_word packed18 (16 * tile_index 16 8 0 + 2 * (0 % 8))) (8 % 8), false⟩) ∧
      (packed18.length < 16 * tile_index 16 8 0 + 16 →
        (out[0 * 16 + 8]?).map Pixel.transparent = some true) :=
  tile_granular_truncation 16 8 (by decide) (by decide) packed18 (List.replicate 128 default)
    (by decide) 0 8 0 (by decide) (by decide)

/-- Claim C6, evaluated at a failing input.  For the 16×8 buffer `gap_image` (left
tile fully transparent, right tile not) the encoder reports size 16, and the
first 16 bytes of the packed buffer are the encoding of the elided left tile
(`0x55` bytes), not the encoding of the right tile (`0xFF` bytes), which lies
past the reported size. -/
theorem elided_tile_bytes_reported :
    tile_transparent gap_image 16 0 = true ∧ tile_transparent gap_image 16 1 = false ∧
    bin_encode_image ⟨some (List.replicate 32 0), 32⟩ ⟨some gap_image, 16, 8⟩ =
      (0, ⟨some (List.replicate 16 0x55 ++ List.replicate 16 0xFF), 16⟩) ∧
    tile_bytes gap_image 16 0 = List.replicate 16 0x55 ∧
    kept_tile_bytes gap_image 16 2 = List.replicate 16 0xFF := by
  decide

/-- Claim C7 (decode-then-encode restores truncated data).  For a tile-aligned grid
of `T = (w/8)*(h/8)` tiles and a packed buffer of `n` bytes, decoding and then
re-encoding the pixel buffer (packed size initialised to `16*T`) reports size
`16 * min T (n/16)`, the first `16 * min T (n/16)` output bytes are the input
bytes, a tile of the decoded image is fully transparent exactly when its index
is at least `n/16` (so the transparent tiles are trailing), and the encoder
subtracts `T - min T (n/16)` tiles. -/
theorem decode_encode_restores (w h : Nat) (hw0 : 0 < w) (hw : w % 8 = 0) (hh0 : 0 < h)
    (hh : h % 8 = 0) (data : List Nat) (hbytes : ∀ b ∈ data, b < 256)
    (target : List Pixel) (htl : target.length = w * h) (pixdata0 : Nat)
    (buf : List Nat) (hbuf : buf.length = (w / 8) * (h / 8) * 16) :
    ∃ img out,
      bin_decode_image pixdata0 ⟨some data, data.length⟩ ⟨some target, w, h⟩ =
        (0, ⟨some img, w, h⟩) ∧
      bin_encode_image ⟨some buf, ((w / 8) * (h / 8) * 16 : Nat)⟩ ⟨some img, w, h⟩ =
        (0, ⟨some out, ((16 * min ((w / 8) * (h / 8)) (data.length / 16) : Nat) : Int)⟩) ∧
      out.take (16 * min ((w / 8) * (h / 8)) (data.length / 16)) =
        data.take (16 * min ((w / 8) * (h / 8)) (data.length / 16)) ∧
      (∀ t, t < (w / 8) * (h / 8) → (tile_transparent img w t = true ↔ data.length / 16 ≤ t)) ∧
      (bin_encode_loops img buf w h).empty_tile_count =
        (w / 8) * (h / 8) - min ((w / 8) * (h / 8)) (data.length / 16) := by
  have hT := tiles_pos w h hw0 hw hh0 hh
  rw [Nat.mul_comm (w / 8) (h / 8)] at hbuf ⊢
  have hsz : (((h / 8) * (w / 8) * 16 : Nat) : Int) ≠ 0 := by
    have : (h / 8) * (w / 8) * 16 ≠ 0 := by omega
    exact_mod_cast this
  have htr := decoded_tile_transparent pixdata0 data w h target hw hh htl
  have hcell := decoded_cell pixdata0 data w h target hw hh htl
  generalize himg : (bin_decode_loops pixdata0 data data.length target w h).image = img
    at htr hcell
  obtain ⟨-, -, e3, e4, e5⟩ := bin_encode_loops_inv img buf w h (by omega)
  have hcount : (bin_encode_loops img buf w h).empty_tile_count =
      h / 8 * (w / 8) - min (h / 8 * (w / 8)) (data.length / 16) := by
    rw [e3, ← countP_range_ge]
    apply List.countP_congr
    intro t ht
    rw [htr t (List.mem_range.1 ht)]
    simp
  refine ⟨img, (bin_encode_loops img buf w h).data, ?_, ?_, ?_, htr, hcount⟩
  · rw [← himg]
    exact bin_decode_image_eq pixdata0 data _ target w h hw0 hh0
  · rw [bin_encode_image_eq buf _ img w h hsz hw0 hh0, hcount]
    have : (((h / 8 * (w / 8) * 16 : Nat) : Int) -
        (((h / 8 * (w / 8) - min (h / 8 * (w / 8)) (data.length / 16)) * 16 : Nat) : Int)) =
        ((16 * min (h / 8 * (w / 8)) (data.length / 16) : Nat) : Int) := by
      omega
    rw [this]
  · apply List.ext_getElem?
    intro j
    rw [List.getElem?_take, List.getElem?_take]
    split
    · next hj =>
      rw [e5, if_pos (by omega)]
      have hjn : j < data.length := by omega
      rw [List.getElem?_eq_getElem hjn]
      refine congrArg some ?_
      have ht : j / 16 < h / 8 * (w / 8) := by omega
      have htn : j / 16 < data.length / 16 := by omega
      unfold encoded_byte
      have hpk : pack_pixels img (romimg_calc_appimg_offset (j / 16 % (w / 8)) (j / 16 / (w / 8))
          (j % 16 / 2) w rom_attrib) 8 = packed_word data (16 * (j / 16) + 2 * (j % 16 / 2)) % 65536 := by
        apply pack_unpack
        intro c hc
        rw [hcell (j / 16) (j % 16 / 2) c ht (by omega) hc, if_pos htn]
      obtain ⟨p1, p2, p3⟩ := packed_word_bytes data (16 * (j / 16) + 2 * (j % 16 / 2))
        (getD_byte data hbytes _) (getD_byte data hbytes _)
      rw [hpk, Nat.mod_eq_of_lt p1]
      have hgj : data.getD j 0 = data[j] := by
        rw [List.getD_eq_getElem?_getD, List.getElem?_eq_getElem hjn, Option.getD_some]
      rcases Nat.mod_two_eq_zero_or_one j with h2 | h2
      · rw [h2, p2, ← hgj]
        congr 1
        omega
      · rw [h2, p3, ← hgj]
        congr 1
        omega
    · rfl

/-- Witness for `decode_encode_restores`: 18 bytes decoded to a 16×8 image. -/
theorem decode_encode_restores_witness :
    ∃ img out,
      bin_decode_image 0 ⟨some packed18, packed18.length⟩ ⟨some (List.replicate 128 default), 16, 8⟩ =
        (0, ⟨some img, 16, 8⟩) ∧
      bin_encode_image ⟨some (List.replicate 32 0), ((16 / 8) * (8 / 8) * 16 : Nat)⟩
          ⟨some img, 16, 8⟩ =
        (0, ⟨some out, ((16 * min ((16 / 8) * (8 / 8)) (packed18.length / 16) : Nat) : Int)⟩) ∧
      out.take (16 * min ((16 / 8) * (8 / 8)) (packed18.length / 16)) =
        packed18.take (16 * min ((16 / 8) * (8 / 8)) (packed18.length / 16)) ∧
      (∀ t, t < (16 / 8) * (8 / 8) →
        (tile_transparent img 16 t = true ↔ packed18.length / 16 ≤ t)) ∧
      (bin_encode_loops img (List.replicate 32 0) 16 8).empty_tile_count =
        (16 / 8) * (8 / 8) - min ((16 / 8) * (8 / 8)) (packed18.length / 16) :=
  decode_encode_restores 16 8 (by decide) (by decide) (by decide) (by decide) packed18
    (by decide) (List.replicate 128 default) (by decide) 0 (List.replicate 32 0) (by decide)

/-- Claim C8 (sticky truncation).  A tile step entered with the truncated flag set
leaves it set and reads no packed byte; and over a whole decode there is a
`k` such that exactly the packed offsets below `16*k` are read and a pixel is
written transparent exactly when its tile index is at least `k`: the
data-decoded tiles are a prefix of the tile order. -/
theorem sticky_truncation (w h : Nat) (hw : w % 8 = 0) (hh : h % 8 = 0) (data : List Nat)
    (target : List Pixel) (htl : target.length = w * h) (pixdata0 : Nat) :
    (∀ (s : decode_state) (x y : Nat), s.rom_ended = true →
      (decode_tile data data.length w y s x).rom_ended = true ∧
      (decode_tile data data.length w y s x).rom_offset = s.rom_offset ∧
      (decode_tile data data.length w y s x).reads = s.reads) ∧
    ∃ k, k ≤ (w / 8) * (h / 8) ∧
      (bin_decode_loops pixdata0 data data.length target w h).reads = List.range (16 * k) ∧
      ∀ px py, px < w → py < h →
        ((bin_decode_loops pixdata0 data data.length target w h).image[py * w + px]?).map
          Pixel.transparent = some (decide (k ≤ tile_index w px py)) := by
  refine ⟨fun s x y he => decode_tile_ended data _ w x y s he,
    min (h / 8 * (w / 8)) (data.length / 16), ?_, ?_, ?_⟩
  · rw [Nat.mul_comm (w / 8) (h / 8)]; omega
  · obtain ⟨h1, -, h3, -, -, -⟩ := bin_decode_loops_inv pixdata0 data data.length w h target hw
      (by rw [htl, Nat.mul_comm])
    rw [h3, h1]
  · intro px py hpx hpy
    rw [bin_decode_loops_pixel pixdata0 data data.length w h target hw hh
      (by rw [htl, Nat.mul_comm]) px py hpx hpy]
    have hti := tile_index_lt w h px py hw hh hpx hpy
    by_cases ht : tile_index w px py < data.length / 16
    · have : ¬ (min (h / 8 * (w / 8)) (data.length / 16) ≤ tile_index w px py) := by omega
      simp only [decoded_pixel, if_pos ht, Option.map_some', this, decide_False]
    · have : min (h / 8 * (w / 8)) (data.length / 16) ≤ tile_index w px py := by omega
      simp only [decoded_pixel, if_neg ht, Option.map_some', this, decide_True]

/-- Witness for `sticky_truncation`: 18 bytes decoded to a 16×8 image. -/
theorem sticky_truncation_witness :
    (∀ (s : decode_state) (x y : Nat), s.rom_ended = true →
      (decode_tile packed18 packed18.length 16 y s x).rom_ended = true ∧
      (decode_tile packed18 packed18.length 16 y s x).rom_offset = s.rom_offset ∧
      (decode_tile packed18 packed18.length 16 y s x).reads = s.reads) ∧
    ∃ k, k ≤ (16 / 8) * (8 / 8) ∧
      (bin_decode_loops 0 packed18 packed18.length (List.replicate 128 default) 16 8).reads =
        List.range (16 * k) ∧
      ∀ px py, px < 16 → py < 8 →
        ((bin_decode_loops 0 packed18 packed18.length (List.replicate 128 default) 16
          8).image[py * 16 + px]?).map Pixel.transparent = some (decide (k ≤ tile_index 16 px py)) :=
  sticky_truncation 16 8 (by decide) (by decide) packed18 (List.replicate 128 default)
    (by decide) 0

/-- Claim C9 (empty-tile accounting).  For a tile-aligned pixel buffer of
`T = (w/8)*(h/8)` tiles in which every pixel is transparent, `bin_encode_image`
with the packed size initialised to `16*T` counts `empty_tile_count = T`,
succeeds, and reports packed size 0. -/
theorem empty_tile_accounting (w h : Nat) (hw0 : 0 < w) (hw : w % 8 = 0) (hh0 : 0 < h)
    (hh : h % 8 = 0) (image : List Pixel) (hlen : image.length = w * h)
    (hall : ∀ p ∈ image, p.transparent = true)
    (buf : List Nat) (hbuf : buf.length = (w / 8) * (h / 8) * 16) :
    (bin_encode_loops image buf w h).empty_tile_count = (w / 8) * (h / 8) ∧
    (bin_encode_image ⟨some buf, ((w / 8) * (h / 8) * 16 : Nat)⟩ ⟨some image, w, h⟩).1 = 0 ∧
    (bin_encode_image ⟨some buf, ((w / 8) * (h / 8) * 16 : Nat)⟩ ⟨some image, w, h⟩).2.size = 0 := by
  have hT := tiles_pos w h hw0 hw hh0 hh
  rw [Nat.mul_comm (w / 8) (h / 8)] at hbuf ⊢
  have hsz : (((h / 8) * (w / 8) * 16 : Nat) : Int) ≠ 0 := by
    have : (h / 8) * (w / 8) * 16 ≠ 0 := by omega
    exact_mod_cast this
  obtain ⟨-, -, e3, -, -⟩ := bin_encode_loops_inv image buf w h (by omega)
  have hcount : (bin_encode_loops image buf w h).empty_tile_count = h / 8 * (w / 8) := by
    rw [e3]
    apply countP_range_eq_self
    intro t ht
    simp only [tile_transparent, List.all_eq_true, List.mem_range]
    intro r hr c hc
    have hk := tile_cell_lt w h t r c ht hr hc
    rw [← hlen] at hk
    rw [List.getD_eq_getElem?_getD, List.getElem?_eq_getElem hk, Option.getD_some]
    exact hall _ (List.getElem_mem hk)
  refine ⟨hcount, ?_, ?_⟩
  · rw [bin_encode_image_eq buf _ image w h hsz hw0 hh0]
  · rw [bin_encode_image_eq buf _ image w h hsz hw0 hh0, hcount]
    exact sub_self _

/-- Witness for `empty_tile_accounting` on an 8×8 image. -/
theorem empty_tile_accounting_witness :
    (bin_encode_loops clear_image (List.replicate 16 0) 8 8).empty_tile_count = (8 / 8) * (8 / 8) ∧
    (bin_encode_image ⟨some (List.replicate 16 0), ((8 / 8) * (8 / 8) * 16 : Nat)⟩
      ⟨some clear_image, 8, 8⟩).1 = 0 ∧
    (bin_encode_image ⟨some (List.replicate 16 0), ((8 / 8) * (8 / 8) * 16 : Nat)⟩
      ⟨some clear_image, 8, 8⟩).2.size = 0 :=
  empty_tile_accounting 8 8 (by decide) (by decide) (by decide) (by decide) clear_image
    (by decide) (by decide) (List.replicate 16 0) (by decide)

/-- Claim C10 (reported encode size).  With the packed size initialised to the full
grid size, `bin_encode_image` succeeds and reports the full grid size minus 16
times the number of tiles all 64 of whose pixels are transparent; a tile step,
whatever state it is entered in, adds one to `empty_tile_count` exactly when the
pixels of that tile are all transparent; and for any nonzero incoming size the
reported size is that size minus 16 times the same number. -/
theorem reported_encode_size (w h : Nat) (hw0 : 0 < w) (hw : w % 8 = 0) (hh0 : 0 < h)
    (hh : h % 8 = 0) (image : List Pixel) (buf : List Nat)
    (hbuf : buf.length = (w / 8) * (h / 8) * 16) :
    (bin_encode_image ⟨some buf, ((w / 8) * (h / 8) * 16 : Nat)⟩ ⟨some image, w, h⟩).1 = 0 ∧
    (bin_encode_image ⟨some buf, ((w / 8) * (h / 8) * 16 : Nat)⟩ ⟨some image, w, h⟩).2.size =
      (((w / 8) * (h / 8) * 16 : Nat) : Int) -
        ((16 * (List.range ((w / 8) * (h / 8))).countP (tile_transparent image w) : Nat) : Int) ∧
    (∀ (s : encode_state) (x y : Nat), x < w / 8 →
      (encode_tile image w y s x).empty_tile_count =
        s.empty_tile_count + (if tile_transparent image w (y * (w / 8) + x) then 1 else 0)) ∧
    ∀ size : Int, size ≠ 0 →
      (bin_encode_image ⟨some buf, size⟩ ⟨some image, w, h⟩).2.size =
        size - ((16 * (List.range ((w / 8) * (h / 8))).countP (tile_transparent image w) : Nat) : Int) := by
  have hT := tiles_pos w h hw0 hw hh0 hh
  refine ⟨?_, ?_, fun s x y hx => encode_tile_count image w x y s hx, ?_⟩
  · rw [Nat.mul_comm (w / 8) (h / 8)]
    have hsz : (((h / 8) * (w / 8) * 16 : Nat) : Int) ≠ 0 := by
      have : (h / 8) * (w / 8) * 16 ≠ 0 := by omega
      exact_mod_cast this
    rw [bin_encode_image_eq buf _ image w h hsz hw0 hh0]
  · rw [Nat.mul_comm (w / 8) (h / 8)] at hbuf ⊢
    have hsz : (((h / 8) * (w / 8) * 16 : Nat) : Int) ≠ 0 := by
      have : (h / 8) * (w / 8) * 16 ≠ 0 := by omega
      exact_mod_cast this
    obtain ⟨-, -, e3, -, -⟩ := bin_encode_loops_inv image buf w h (by omega)
    rw [bin_encode_image_eq buf _ image w h hsz hw0 hh0, e3, Nat.mul_comm 16]
  · intro size hsize
    rw [Nat.mul_comm (w / 8) (h / 8)] at hbuf ⊢
    obtain ⟨-, -, e3, -, -⟩ := bin_encode_loops_inv image buf w h (by omega)
    rw [bin_encode_image_eq buf _ image w h hsize hw0 hh0, e3, Nat.mul_comm 16]

/-- Witness for `reported_encode_size` on a 16×8 image with one transparent tile. -/
theorem reported_encode_size_witness :
    (bin_encode_image ⟨some (List.replicate 32 0), ((16 / 8) * (8 / 8) * 16 : Nat)⟩
      ⟨some gap_image, 16, 8⟩).1 = 0 ∧
    (bin_encode_image ⟨some (List.replicate 32 0), ((16 / 8) * (8 / 8) * 16 : Nat)⟩
      ⟨some gap_image, 16, 8⟩).2.size =
      (((16 / 8) * (8 / 8) * 16 : Nat) : Int) -
        ((16 * (List.range ((16 / 8) * (8 / 8))).countP (tile_transparent gap_image 16) : Nat) : Int) ∧
    (∀ (s : encode_state) (x y : Nat), x < 16 / 8 →
      (encode_tile gap_image 16 y s x).empty_tile_count =
        s.empty_tile_count + (if tile_transparent gap_image 16 (y * (16 / 8) + x) then 1 else 0)) ∧
    ∀ size : Int, size ≠ 0 →
      (bin_encode_image ⟨some (List.replicate 32 0), size⟩ ⟨some gap_image, 16, 8⟩).2.size =
        size - ((16 * (List.range ((16 / 8) * (8 / 8))).countP (tile_transparent gap_image 16) : Nat) :
          Int) :=
  reported_encode_size 16 8 (by decide) (by decide) (by decide) (by decide) gap_image
    (List.replicate 32 0) (by decide)

/-- Claim C11 (truncation monotonicity).  For a fixed target whose width and height
are positive multiples of 8 and two packed buffers of which the second is no
longer than the first (in particular when it is a prefix of the first),
`bin_decode_image` writes at least as many transparent pixels for the shorter
buffer as for the longer one. -/
theorem truncation_monotone (w h : Nat) (hw0 : 0 < w) (hw : w % 8 = 0) (hh0 : 0 < h)
    (hh : h % 8 = 0) (data1 data2 : List Nat) (hle : data2.length ≤ data1.length)
    (target1 target2 : List Pixel) (htl1 : target1.length = w * h)
    (htl2 : target2.length = w * h) (pixdata1 pixdata2 : Nat) :
    ∃ out1 out2,
      bin_decode_image pixdata1 ⟨some data1, data1.length⟩ ⟨some target1, w, h⟩ =
        (0, ⟨some out1, w, h⟩) ∧
      bin_decode_image pixdata2 ⟨some data2, data2.length⟩ ⟨some target2, w, h⟩ =
        (0, ⟨some out2, w, h⟩) ∧
      transparent_count out1 ≤ transparent_count out2 := by
  refine ⟨_, _, bin_decode_image_eq pixdata1 data1 _ target1 w h hw0 hh0,
    bin_decode_image_eq pixdata2 data2 _ target2 w h hw0 hh0, ?_⟩
  rw [decoded_transparent_count pixdata1 data1 w h target1 hw hh htl1,
    decoded_transparent_count pixdata2 data2 w h target2 hw hh htl2]
  apply List.countP_mono_left
  intro k _ hk
  simp only [decide_eq_true_eq] at hk ⊢
  have : data2.length / 16 ≤ data1.length / 16 := Nat.div_le_div_right hle
  omega

/-- Witness for `truncation_monotone`: 18 bytes against their first 10 bytes, 16×8
target. -/
theorem truncation_monotone_witness :
    ∃ out1 out2,
      bin_decode_image 0 ⟨some packed18, packed18.length⟩
        ⟨some (List.replicate 128 default), 16, 8⟩ = (0, ⟨some out1, 16, 8⟩) ∧
      bin_decode_image 0 ⟨some (packed18.take 10), (packed18.take 10).length⟩
        ⟨some (List.replicate 128 default), 16, 8⟩ = (0, ⟨some out2, 16, 8⟩) ∧
      transparent_count out1 ≤ transparent_count out2 :=
  truncation_monotone 16 8 (by decide) (by decide) (by decide) (by decide) packed18
    (packed18.take 10) (by decide) (List.replicate 128 default) (List.replicate 128 default)
    (by decide) (by decide) 0 0

/-- Claim C13 (decode failure condition).  `bin_decode_image` returns -1 exactly when
the packed data buffer is missing, the pixel buffer is missing, the width is 0
or the height is 0, and then leaves the pixel buffer descriptor untouched; in
every other case, whatever the packed size, it returns 0. -/
theorem decode_failure_condition (pixdata0 : Nat) (p_rom_gfx : rom_gfx_data)
    (p_app_gfx : app_gfx_data) :
    ((bin_decode_image pixdata0 p_rom_gfx p_app_gfx).1 = -1 ↔
      (p_rom_gfx.p_data = none ∨ p_app_gfx.p_data = none ∨ p_app_gfx.width = 0 ∨
        p_app_gfx.height = 0)) ∧
    ((bin_decode_image pixdata0 p_rom_gfx p_app_gfx).1 = -1 →
      (bin_decode_image pixdata0 p_rom_gfx p_app_gfx).2 = p_app_gfx) ∧
    ((bin_decode_image pixdata0 p_rom_gfx p_app_gfx).1 ≠ -1 →
      (bin_decode_image pixdata0 p_rom_gfx p_app_gfx).1 = 0) := by
  obtain ⟨d, size⟩ := p_rom_gfx
  obtain ⟨img, w, h⟩ := p_app_gfx
  cases d with
  | none => simp [bin_decode_image]
  | some data =>
    cases img with
    | none => simp [bin_decode_image]
    | some image =>
      by_cases hc : w = 0 ∨ h = 0
      · simp [bin_decode_image, hc]
      · simp only [bin_decode_image, if_neg hc]
        have hw : ¬ w = 0 := fun h0 => hc (Or.inl h0)
        have hh : ¬ h = 0 := fun h0 => hc (Or.inr h0)
        simp [hw, hh]

/-- Claim C14 (encode failure condition).  `bin_encode_image` returns -1 exactly when
the pixel buffer is missing, the packed buffer is missing, the packed size is 0,
the width is 0 or the height is 0, and then leaves the packed buffer and its
size untouched; in every other case it returns 0. -/
theorem encode_failure_condition (p_rom_gfx : rom_gfx_data) (p_app_gfx : app_gfx_data) :
    ((bin_encode_image p_rom_gfx p_app_gfx).1 = -1 ↔
      (p_app_gfx.p_data = none ∨ p_rom_gfx.p_data = none ∨ p_rom_gfx.size = 0 ∨
        p_app_gfx.width = 0 ∨ p_app_gfx.height = 0)) ∧
    ((bin_encode_image p_rom_gfx p_app_gfx).1 = -1 →
      (bin_encode_image p_rom_gfx p_app_gfx).2 = p_rom_gfx) ∧
    ((bin_encode_image p_rom_gfx p_app_gfx).1 ≠ -1 →
      (bin_encode_image p_rom_gfx p_app_gfx).1 = 0) := by
  obtain ⟨d, size⟩ := p_rom_gfx
  obtain ⟨img, w, h⟩ := p_app_gfx
  cases img with
  | none => simp [bin_encode_image]
  | some image =>
    cases d with
    | none => simp [bin_encode_image]
    | some data =>
      by_cases hc : size = 0 ∨ w = 0 ∨ h = 0
      · simp [bin_encode_image, hc]
      · simp only [bin_encode_image, if_neg hc]
        have hs : ¬ size = 0 := fun h0 => hc (Or.inl h0)
        have hw : ¬ w = 0 := fun h0 => hc (Or.inr (Or.inl h0))
        have hh : ¬ h = 0 := fun h0 => hc (Or.inr (Or.inr h0))
        simp [hs, hw, hh]

/-- Claim C16 (decoder read safety).  For every packed buffer of `n` bytes and every
target width and height, the packed offsets the decoder reads are exactly
`0 .. 16 * min ((w/8)*(h/8)) (n/16) - 1`, in order; each is below `n`, so the
indexing of the packed buffer never leaves it, and their number is
`16 * min ((w/8)*(h/8)) (n/16)`. -/
theorem decoder_read_safety (pixdata0 : Nat) (data : List Nat) (target : List Pixel)
    (w h : Nat) :
    (bin_decode_loops pixdata0 data data.length target w h).reads =
      List.range (16 * min ((w / 8) * (h / 8)) (data.length / 16)) ∧
    (∀ o ∈ (bin_decode_loops pixdata0 data data.length target w h).reads,
      o < data.length ∧ data[o]? ≠ none) ∧
    (bin_decode_loops pixdata0 data data.length target w h).reads.length =
      16 * min ((w / 8) * (h / 8)) (data.length / 16) := by
  obtain ⟨h1, -, h3⟩ := bin_decode_loops_ctrl pixdata0 data data.length w h target
  rw [Nat.mul_comm (w / 8) (h / 8)]
  rw [h3, h1]
  refine ⟨rfl, ?_, List.length_range _⟩
  intro o ho
  rw [List.mem_range] at ho
  have hlt : o < data.length := by omega
  exact ⟨hlt, by rw [List.getElem?_eq_getElem hlt]; simp⟩

/-- Claim C17 (palette index of truncated pixels).  When the packed buffer holds at
least one complete tile, every pixel of every truncated tile is stored with
palette index 0, whatever the uninitialised `pixdata` was.  When it holds fewer
than 16 bytes the word is used before any assignment: row 0 of tile 0 is
unpacked from the uninitialised value (every other pixel gets index 0), so for
the same input pixel 0 can be stored with any index `v < 4`. -/
theorem truncated_pixel_index (w h : Nat) (hw : w % 8 = 0) (hh : h % 8 = 0) (data : List Nat)
    (target : List Pixel) (htl : target.length = w * h) :
    (16 ≤ data.length → ∀ pixdata0 px py, px < w → py < h →
      data.length / 16 ≤ tile_index w px py →
      ∃ out, bin_decode_image pixdata0 ⟨some data, data.length⟩ ⟨some target, w, h⟩ =
          (0, ⟨some out, w, h⟩) ∧
        out[py * w + px]? = some ⟨0, true⟩) ∧
    (data.length < 16 → ∀ pixdata0 px py, px < w → py < h →
      ∃ out, bin_decode_image pixdata0 ⟨some data, data.length⟩ ⟨some target, w, h⟩ =
          (0, ⟨some out, w, h⟩) ∧
        out[py * w + px]? = some ⟨if tile_index w px py = 0 ∧ py % 8 = 0
          then unpack_pixel (pixdata0 % 65536) (px % 8) else 0, true⟩) ∧
    (data.length < 16 → 0 < w → 0 < h → ∀ v, v < 4 →
      ∃ pixdata0 out, bin_decode_image pixdata0 ⟨some data, data.length⟩ ⟨some target, w, h⟩ =
          (0, ⟨some out, w, h⟩) ∧
        out[0]? = some ⟨v, true⟩) := by
  have hpix := fun pixdata0 px py hpx hpy =>
    bin_decode_loops_pixel pixdata0 data data.length w h target hw hh
      (by rw [htl, Nat.mul_comm]) px py hpx hpy
  refine ⟨?_, ?_, ?_⟩
  · intro hn pixdata0 px py hpx hpy ht
    refine ⟨_, bin_decode_image_eq pixdata0 data _ target w h (by omega) (by omega), ?_⟩
    rw [hpix pixdata0 px py hpx hpy]
    have h1 : ¬ tile_index w px py < data.length / 16 := by omega
    have h2 : ¬ (tile_index w px py = 0 ∧ py % 8 = 0) := by omega
    simp only [decoded_pixel, if_neg h1, if_neg h2]
  · intro hn pixdata0 px py hpx hpy
    refine ⟨_, bin_decode_image_eq pixdata0 data _ target w h (by omega) (by omega), ?_⟩
    rw [hpix pixdata0 px py hpx hpy]
    have h1 : ¬ tile_index w px py < data.length / 16 := by omega
    simp only [decoded_pixel, if_neg h1]
  · intro hn hw0 hh0 v hv
    refine ⟨v * 16384, _, bin_decode_image_eq (v * 16384) data _ target w h hw0 hh0, ?_⟩
    have h0 := hpix (v * 16384) 0 0 hw0 hh0
    rw [Nat.zero_mul, Nat.add_zero] at h0
    rw [h0]
    have h1 : ¬ tile_index w 0 0 < data.length / 16 := by omega
    have h2 : tile_index w 0 0 = 0 ∧ 0 % 8 = 0 := ⟨by simp [tile_index], rfl⟩
    unfold decoded_pixel
    rw [if_neg h1, if_pos h2, show 0 % 8 = 0 from rfl, unpack_top v hv]

/-- Witness for `truncated_pixel_index`: pixel `(8, 0)` decoded from 18 bytes, and
pixel 0 decoded from 10 bytes. -/
theorem truncated_pixel_index_witness :
    (∃ out, bin_decode_image 0xFFFF ⟨some packed18, packed18.length⟩
        ⟨some (List.replicate 128 default), 16, 8⟩ = (0, ⟨some out, 16, 8⟩) ∧
      out[0 * 16 + 8]? = some ⟨0, true⟩) ∧
    (∃ pixdata0 out, bin_decode_image pixdata0 ⟨some (packed18.take 10), (packed18.take 10).length⟩
        ⟨some (List.replicate 128 default), 16, 8⟩ = (0, ⟨some out, 16, 8⟩) ∧
      out[0]? = some ⟨3, true⟩) :=
  ⟨(truncated_pixel_index 16 8 (by decide) (by decide) packed18 (List.replicate 128 default)
      (by decide)).1 (by decide) 0xFFFF 8 0 (by decide) (by decide) (by decide),
    (truncated_pixel_index 16 8 (by decide) (by decide) (packed18.take 10)
      (List.replicate 128 default) (by decide)).2.2 (by decide) (by decide) (by decide) 3
      (by decide)⟩

/-- Claim C18 (encoder index masking).  `bin_encode_image` returns the same code,
packed bytes and size for a pixel buffer and for the buffer in which every
palette index is replaced by its value modulo 4; and decoding the encoding of a
tile-aligned buffer with no fully transparent tile stores each input index
modulo 4. -/
theorem encoder_index_masking (w h : Nat) (hw0 : 0 < w) (hw : w % 8 = 0) (hh0 : 0 < h)
    (hh : h % 8 = 0) (image : List Pixel) (hlen : image.length = w * h)
    (buf : List Nat) (hbuf : buf.length = (w / 8) * (h / 8) * 16)
    (target : List Pixel) (htl : target.length = w * h) (pixdata0 : Nat) :
    (∀ p_rom_gfx : rom_gfx_data,
      bin_encode_image p_rom_gfx ⟨some image, w, h⟩ =
        bin_encode_image p_rom_gfx ⟨some (image.map mask_index), w, h⟩) ∧
    ((∀ t, t < (w / 8) * (h / 8) → tile_transparent image w t = false) →
      ∃ packed out,
        bin_encode_image ⟨some buf, ((w / 8) * (h / 8) * 16 : Nat)⟩ ⟨some image, w, h⟩ =
          (0, packed) ∧
        bin_decode_image pixdata0 packed ⟨some target, w, h⟩ = (0, ⟨some out, w, h⟩) ∧
        out.map Pixel.index = image.map (fun p => p.index % 4)) :=
  ⟨fun p_rom_gfx => (bin_encode_image_mask p_rom_gfx image w h).symm,
    fun hnt => roundtrip_mod_four w h hw0 hw hh0 hh image hlen hnt buf hbuf target htl pixdata0⟩

/-- Witness for `encoder_index_masking` on an 8×8 image with indices up to 255. -/
theorem encoder_index_masking_witness :
    (∀ p_rom_gfx : rom_gfx_data,
      bin_encode_image p_rom_gfx ⟨some wide_image, 8, 8⟩ =
        bin_encode_image p_rom_gfx ⟨some (wide_image.map mask_index), 8, 8⟩) ∧
    (∃ packed out,
      bin_encode_image ⟨some (List.replicate 16 0), ((8 / 8) * (8 / 8) * 16 : Nat)⟩
        ⟨some wide_image, 8, 8⟩ = (0, packed) ∧
      bin_decode_image 0 packed ⟨some clear_image, 8, 8⟩ = (0, ⟨some out, 8, 8⟩) ∧
      out.map Pixel.index = wide_image.map (fun p => p.index % 4)) :=
  ⟨(encoder_index_masking 8 8 (by decide) (by decide) (by decide) (by decide) wide_image
      (by decide) (List.replicate 16 0) (by decide) clear_image (by decide) 0).1,
    (encoder_index_masking 8 8 (by decide) (by decide) (by decide) (by decide) wide_image
      (by decide) (List.replicate 16 0) (by decide) clear_image (by decide) 0).2 (by decide)⟩

/-- Claim C19 (tile byte size).  The value both functions compute as
`(TILE_PIXEL_WIDTH * TILE_PIXEL_HEIGHT) / (8 / BITS_PER_PIXEL)` from the
geometry `(8, 8, 2)` is 16, and equals `(width * height * bitsPerPixel) / 8`. -/
theorem tile_byte_size :
    tile_size_in_bytes = 16 ∧
    (rom_attrib.TILE_PIXEL_WIDTH * rom_attrib.TILE_PIXEL_HEIGHT) / (8 / rom_attrib.BITS_PER_PIXEL)
      = 16 ∧
    tile_size_in_bytes =
      (rom_attrib.TILE_PIXEL_WIDTH * rom_attrib.TILE_PIXEL_HEIGHT * rom_attrib.BITS_PER_PIXEL) / 8 ∧
    (rom_attrib.TILE_PIXEL_WIDTH, rom_attrib.TILE_PIXEL_HEIGHT, rom_attrib.BITS_PER_PIXEL) =
      (8, 8, 2) := by
  decide

end NgpCodec
